import Mathlib

/-! # CloudRendering: task pipeline, coordinate mapping and spline resampling

A shallow embedding of `ACloudRenderingGameModeBase`
(`Source/CloudRendering/CloudRenderingGameModeBase.{h,cpp}`).

Conventions of the embedding:

* `float` values are rationals (`ℚ`): all arithmetic is exact, `0.1f` is `1/10`; the one
  function whose numeric result is itself specified, `GetParsedPos`, is modelled a second
  time in IEEE 754 binary32 arithmetic, in the namespace `Float32`;
* `FString` is `String`; where characters are inspected the model works on the
  character list `String.data`;
* `TArray`, `TQueue` and `TMap` are lists (a queue's head is the list's head, a map
  is the list of its pairs in insertion order);
* pointers that may be null are `Option`;
* an engine failure (null dereference, array index out of bounds) is a `Fault`.
-/

namespace CloudRendering

/-! ## Spline resampling loop of `LoadBrush` (lines 239-263) -/

/-- One spawned `ASplineMeshActor` of the resampling loop, described by the two
distances along the spline handed to `GetLocationAtDistanceAlongSpline`:
`StartPos` is taken at `Start` (`SplineLength`), `EndPos` at `End` (`NextSplineLength`). -/
structure Segment where
  Start : ℚ
  End : ℚ
  deriving DecidableEq, Repr

/-- The `while (true)` loop of `LoadBrush`.  `Len` is `SplineComponent->GetSplineLength()`,
`ContinuousSpan` the member of that name, `SplineLength` the loop variable and `Spawned`
the segments spawned so far (in spawn order).  Each unit of `fuel` pays for one evaluation
of the loop body; `none` means the fuel ran out before the `break`. -/
def sampleSpline (Len ContinuousSpan : ℚ) : Nat → ℚ → List Segment → Option (List Segment)
  | 0, _, _ => none
  | fuel + 1, SplineLength, Spawned =>
    let NextSplineLength := min (SplineLength + ContinuousSpan) Len
    if Len - NextSplineLength < ContinuousSpan * (1 / 10) then
      some Spawned
    else
      sampleSpline Len ContinuousSpan fuel NextSplineLength
        (Spawned ++ [⟨SplineLength, NextSplineLength⟩])

/-- The distance at which the last spawned segment ends, `0` when none was spawned. -/
def lastEnd (Spawned : List Segment) : ℚ :=
  match Spawned.getLast? with
  | some s => s.End
  | none => 0

/-- The segments `[(k-1)*S, k*S]` for `k = 1..n`, written with `k` starting at `0`. -/
def fullSegments (S : ℚ) (n : Nat) : List Segment :=
  (List.range n).map fun (k : Nat) => ⟨(k : ℚ) * S, ((k : ℚ) + 1) * S⟩

/-- The number of segments `max(0, floor(L/S - 1/10))`. -/
def segmentCount (L S : ℚ) : Nat :=
  (max 0 ⌊L / S - 1 / 10⌋).toNat

/-! ## Coordinate mapping: `GetParsedPos` (lines 364-373) -/

/-- Engine type `FVector2D`. -/
structure FVector2D where
  X : ℚ
  Y : ℚ
  deriving DecidableEq, Repr

/-- Engine type `FVector`. -/
structure FVector where
  X : ℚ
  Y : ℚ
  Z : ℚ
  deriving DecidableEq, Repr

/-- Engine function `FString::Split(",", &Left, &Right)` on the characters of the string:
the text before and after the first comma, `none` (the call returns `false` and leaves both
outputs untouched) when there is no comma. -/
def Split : List Char → Option (List Char × List Char)
  | [] => none
  | c :: cs =>
    if c = ',' then some ([], cs)
    else match Split cs with
      | some (Left, Right) => some (c :: Left, Right)
      | none => none

/-- White space as skipped by `strtod`: space, tab, line feed, vertical tab, form feed,
carriage return. -/
def isSpace (c : Char) : Bool :=
  c.toNat = 32 || (9 ≤ c.toNat && c.toNat ≤ 13)

/-- Reads a run of decimal digits: the number of digits read, their value added to `acc`
in base ten, and the unread rest. -/
def readDigits : List Char → Nat → Nat → Nat × Nat × List Char
  | [], n, acc => (n, acc, [])
  | c :: cs, n, acc =>
    if c.isDigit then readDigits cs (n + 1) (acc * 10 + (c.toNat - 48))
    else (n, acc, c :: cs)

/-- The exponent part of a decimal floating literal: `e` or `E`, an optional sign and at
least one digit; `0` when the text does not continue with one. -/
def readExponent : List Char → ℤ
  | [] => 0
  | c :: cs =>
    if c = 'e' || c = 'E' then
      match cs with
      | '-' :: ds => match readDigits ds 0 0 with
        | (0, _, _) => 0
        | (_, v, _) => -(v : ℤ)
      | '+' :: ds => match readDigits ds 0 0 with
        | (0, _, _) => 0
        | (_, v, _) => (v : ℤ)
      | ds => match readDigits ds 0 0 with
        | (0, _, _) => 0
        | (_, v, _) => (v : ℤ)
    else 0

/-- The mantissa and exponent of the text after white space and sign. -/
def readUnsigned (s : List Char) : ℚ :=
  match readDigits s 0 0 with
  | (ni, vi, rest) =>
    match rest with
    | '.' :: fs =>
      match readDigits fs 0 0 with
      | (nf, vf, rest') =>
        if ni + nf = 0 then 0
        else ((vi : ℚ) + (vf : ℚ) / 10 ^ nf) * 10 ^ readExponent rest'
    | _ =>
      if ni = 0 then 0 else (vi : ℚ) * 10 ^ readExponent rest

/-- C library function behind `FCString::Atof` (`strtod`) in exact arithmetic, for decimal
text: leading white space, an optional sign, digits with an optional fraction, an optional
exponent; `0` when no number can be read.  The rounding to `float` and the hexadecimal,
infinity and NaN spellings are in `Float32.Atof`. -/
def Atof (s : List Char) : ℚ :=
  match s.dropWhile isSpace with
  | '-' :: rest => -readUnsigned rest
  | '+' :: rest => readUnsigned rest
  | rest => readUnsigned rest

/-- Engine function `FMath::Clamp`. -/
def Clamp (X Min Max : ℚ) : ℚ :=
  if X < Min then Min else if X < Max then X else Max

/-- Engine function `FMath::GetRangePct(MinValue, MaxValue, Value)`; the divisor counts as
zero when `FMath::IsNearlyZero` holds of it (magnitude at most `1e-8`). -/
def GetRangePct (MinValue MaxValue Value : ℚ) : ℚ :=
  let Divisor := MaxValue - MinValue
  if |Divisor| ≤ 1 / 10 ^ 8 then
    if Value ≥ MaxValue then 1 else 0
  else (Value - MinValue) / Divisor

/-- Engine function `FMath::Lerp`. -/
def Lerp (A B Alpha : ℚ) : ℚ :=
  A + Alpha * (B - A)

/-- Engine function `UKismetMathLibrary::MapRangeClamped`
(`FMath::GetMappedRangeValueClamped`). -/
def MapRangeClamped (Value InRangeA InRangeB OutRangeA OutRangeB : ℚ) : ℚ :=
  Lerp OutRangeA OutRangeB (Clamp (GetRangePct InRangeA InRangeB Value) 0 1)

/-- Source function `ACloudRenderingGameModeBase::GetParsedPos` in exact arithmetic.  `XStr`
and `YStr` start out empty and keep that value when `Split` finds no comma.  The same
function in `float` arithmetic is `Float32.GetParsedPos`. -/
def GetParsedPos (LandscapeSize : FVector2D) (PosStr : String) : FVector :=
  let Strs : List Char × List Char :=
    match Split PosStr.data with
    | some (XStr, YStr) => (XStr, YStr)
    | none => ([], [])
  let X := Atof Strs.1
  let Y := Atof Strs.2
  ⟨MapRangeClamped X 0 1 (-LandscapeSize.X * (1 / 2)) (LandscapeSize.X * (1 / 2)),
   MapRangeClamped Y 0 1 (-LandscapeSize.Y * (1 / 2)) (LandscapeSize.Y * (1 / 2)),
   0⟩

/-! ## Task pipeline state and the engine around it -/

/-- Enumeration `ETaskState` of `CloudRenderingGameModeBase.h`. -/
inductive ETaskState
  | TS_Brush
  | TS_Snapshot
  | TS_Finish
  deriving DecidableEq, Repr

/-- Engine operator `FString::operator==`, which ignores case. -/
def FStringEquals (A B : String) : Bool :=
  A.data.map Char.toLower == B.data.map Char.toLower

/-- Engine function `TArray<FString>::Contains`. -/
def Contains (Array : List String) (Item : String) : Bool :=
  Array.any fun Element => FStringEquals Element Item

/-- Row of a mesh data table (`FMeshRow`); a mesh is named by its asset, a null pointer is
`none`. -/
structure FMeshRow where
  StaticMesh : Option String
  SkeletalMesh : Option String
  deriving DecidableEq, Repr

/-- Pointer to a data table (`UDataTable*`) seen through `GetAllRows`: `none` is the null
pointer of an unassigned property. -/
abbrev UDataTable := Option (List FMeshRow)

/-- An element of a type array of the manifest, seen through the accessors `LoadBrush`
applies to it. -/
structure FJsonInstance where
  /-- Value of `GetStringField(TEXT("pos"))`. -/
  pos : String
  /-- Value of `GetNumberField(TEXT("yaw"))`. -/
  yaw : ℚ
  /-- Value of `GetNumberField(TEXT("width"))`. -/
  width : ℚ
  /-- Value of `GetArrayField(TEXT("curve"))`, each element through `AsString()`. -/
  curve : List String
  deriving DecidableEq, Repr

/-- The root object of a manifest: its fields with, for each, the array `GetArrayField`
yields. -/
abbrev FJsonObject := List (String × List FJsonInstance)

/-- Engine function `FJsonObject::HasField`; field names are `FString` keys. -/
def HasField (Object : FJsonObject) (FieldName : String) : Bool :=
  Object.any fun Field => FStringEquals Field.1 FieldName

/-- Engine function `FJsonObject::GetArrayField`. -/
def GetArrayField (Object : FJsonObject) (FieldName : String) : List FJsonInstance :=
  match Object.find? fun Field => FStringEquals Field.1 FieldName with
  | some Field => Field.2
  | none => []

/-- A spawned actor, with what `LoadBrush` sets on it. -/
inductive AActor
  /-- An `AStaticMeshActor` spawned at `Location` with rotation `FRotator(0, Yaw, 0)`. -/
  | StaticMeshActor (Location : FVector) (Yaw : ℚ) (StaticMesh : String)
  /-- An `ASkeletalMeshActor` spawned at `Location` with rotation `FRotator(0, Yaw, 0)`. -/
  | SkeletalMeshActor (Location : FVector) (Yaw : ℚ) (SkeletalMesh : String)
  /-- An `ASplineMeshActor` running along the spline through `Points` from distance
  `Segment.Start` to distance `Segment.End`, scaled by `Width`. -/
  | SplineMeshActor (StaticMesh : Option String) (Points : List FVector)
      (Span : Segment) (Width : ℚ)
  deriving DecidableEq, Repr

/-- What stops the program, or the model of it. -/
inductive Fault
  /-- Dereference of a null pointer. -/
  | NullPointer
  /-- Array index out of bounds. -/
  | IndexOutOfBounds
  /-- The fuel given to a `while (true)` loop ran out. -/
  | OutOfFuel
  deriving DecidableEq, Repr

/-- A call the program makes, recorded in the order of execution.  The record is not a
member of the class; it exists to state properties of call sequences. -/
inductive Event
  /-- Call `TaskQueue.Enqueue(DirectoryName)` in `Poll`. -/
  | Enqueue (DirectoryName : String)
  /-- Call `TaskQueue.Dequeue(Task)` in `Tick`, with the value stored in `Task`. -/
  | Dequeue (Task : String)
  /-- Call `LoadBrush()` with the value of `Task` at the call. -/
  | LoadBrush (Task : String)
  /-- Call `GenSnapshots(Num)` with the value of `Task` at the call. -/
  | GenSnapshots (Task : String) (Num : Nat)
  deriving DecidableEq, Repr

/-- The file system as the game mode queries it. -/
structure FileSystem where
  /-- Engine function `IFileManager::FindFiles(_, Pattern, false, true)`: the directories
  matching the pattern. -/
  FindFiles : String → List String
  /-- Engine function `FPaths::FileExists`. -/
  FileExists : String → Bool

/-- The engine services `LoadBrush` calls. -/
structure Engine where
  /-- Engine function `IFileManager::CreateFileReader` followed by `FJsonSerializer::Deserialize` into a
  fresh object: `none` when the file cannot be opened, else the flag `Deserialize` returns
  and the object it leaves. -/
  OpenJson : String → Option (Bool × FJsonObject)
  /-- The raw outcome of the `n`-th random draw of the call. -/
  Random : Nat → Nat
  /-- Engine function `USplineComponent::GetSplineLength` of the spline through the given points. -/
  GetSplineLength : List FVector → ℚ
  /-- Engine function `FVector2D::Size`. -/
  Size : FVector2D → ℚ

/-- The members of `ACloudRenderingGameModeBase` (those the modelled functions use), and
the record of calls `Trace`. -/
structure GameMode where
  LandscapeSize : FVector2D
  ContinuousSpan : ℚ
  TreeDataTable : UDataTable
  GrassDataTable : UDataTable
  RockDataTable : UDataTable
  HouseDataTable : UDataTable
  HillDataTable : UDataTable
  RoadDataTable : UDataTable
  RiverDataTable : UDataTable
  DiscreteDataTableMap : List (String × UDataTable)
  ContinuousDataTableMap : List (String × UDataTable)
  Actors : List AActor
  DataPath : String
  LastTasks : List String
  TaskQueue : List String
  Task : String
  TaskState : ETaskState
  Trace : List Event
  deriving DecidableEq

/-- The data tables assigned in the class defaults (`EditDefaultsOnly` properties). -/
structure DataTables where
  TreeDataTable : UDataTable
  GrassDataTable : UDataTable
  RockDataTable : UDataTable
  HouseDataTable : UDataTable
  HillDataTable : UDataTable
  RoadDataTable : UDataTable
  RiverDataTable : UDataTable

/-- The constructor `ACloudRenderingGameModeBase::ACloudRenderingGameModeBase`;
`ProjectContentDir` is `FPaths::ProjectContentDir()`.  Containers start empty, `Task` as the
empty string. -/
def GameMode.construct (ProjectContentDir : String) (Tables : DataTables) : GameMode where
  LandscapeSize := ⟨40000, 30000⟩
  ContinuousSpan := 400
  TreeDataTable := Tables.TreeDataTable
  GrassDataTable := Tables.GrassDataTable
  RockDataTable := Tables.RockDataTable
  HouseDataTable := Tables.HouseDataTable
  HillDataTable := Tables.HillDataTable
  RoadDataTable := Tables.RoadDataTable
  RiverDataTable := Tables.RiverDataTable
  DiscreteDataTableMap := []
  ContinuousDataTableMap := []
  Actors := []
  DataPath := ProjectContentDir ++ "Data"
  LastTasks := []
  TaskQueue := []
  Task := ""
  TaskState := ETaskState.TS_Finish
  Trace := []

/-- Source function `ACloudRenderingGameModeBase::FindNonEmptyDirectoryNames`. -/
def FindNonEmptyDirectoryNames (DataPath : String) (fs : FileSystem) : List String :=
  (fs.FindFiles (DataPath ++ "/*")).filter fun FoundDirectoryName =>
    fs.FileExists (DataPath ++ "/" ++ FoundDirectoryName ++ "/brush.json")

/-- Source function `ACloudRenderingGameModeBase::BeginPlay`: the two type maps are filled,
then every directory found is added to `LastTasks`. -/
def BeginPlay (fs : FileSystem) (s : GameMode) : GameMode :=
  let s1 : GameMode :=
    { s with
      DiscreteDataTableMap :=
        [("tree", s.TreeDataTable), ("grass", s.GrassDataTable), ("rock", s.RockDataTable),
         ("house", s.HouseDataTable), ("mount", s.HillDataTable)]
      ContinuousDataTableMap :=
        [("road", s.RoadDataTable), ("river", s.RiverDataTable)] }
  (FindNonEmptyDirectoryNames s1.DataPath fs).foldl
    (fun (g : GameMode) DirectoryName => { g with LastTasks := g.LastTasks ++ [DirectoryName] })
    s1

/-- The body of the loop of `Poll` for one directory name. -/
def PollStep (s : GameMode) (DirectoryName : String) : GameMode :=
  if !Contains s.LastTasks DirectoryName then
    { s with
      LastTasks := s.LastTasks ++ [DirectoryName]
      TaskQueue := s.TaskQueue ++ [DirectoryName]
      Trace := s.Trace ++ [Event.Enqueue DirectoryName] }
  else s

/-- Source function `ACloudRenderingGameModeBase::Poll`. -/
def Poll (fs : FileSystem) (s : GameMode) : GameMode :=
  (FindNonEmptyDirectoryNames s.DataPath fs).foldl PollStep s

/-! ## `LoadBrush` (lines 149-280) -/

/-- Source function `ACloudRenderingGameModeBase::LoadJsonFile`: the returned flag and the value of the
reference parameter `RootJsonObject` after the call. -/
def LoadJsonFile (eng : Engine) (JsonFilePath : String) (RootJsonObject : Option FJsonObject) :
    Bool × Option FJsonObject :=
  match eng.OpenJson JsonFilePath with
  | none => (false, RootJsonObject)
  | some (bJsonLoaded, Root) => (bJsonLoaded, some Root)

/-- Engine function `UKismetMathLibrary::RandomIntegerInRange` on the raw outcome of the
draw: a value of `[Min, Max]`, and `Min` when the range is empty. -/
def RandomIntegerInRange (Raw : Nat) (Min Max : ℤ) : ℤ :=
  let Range := Max - Min + 1
  if Range > 0 then Min + (Raw : ℤ) % Range else Min

/-- Source function `ACloudRenderingGameModeBase::GetRandomMeshRow`, `Raw` being the outcome of its draw. -/
def GetRandomMeshRow (DataTable : UDataTable) (Raw : Nat) : Except Fault FMeshRow :=
  match DataTable with
  | none => .error Fault.NullPointer
  | some MeshRows =>
    let Index := RandomIntegerInRange Raw 0 ((MeshRows.length : ℤ) - 1)
    if Index < 0 then .error Fault.IndexOutOfBounds
    else match MeshRows[Index.toNat]? with
      | some MeshRow => .ok MeshRow
      | none => .error Fault.IndexOutOfBounds

/-- Source function `ACloudRenderingGameModeBase::GetRelativeWidth`. -/
def GetRelativeWidth (eng : Engine) (s : GameMode) (Width : ℚ) : ℚ :=
  Width * eng.Size s.LandscapeSize / s.ContinuousSpan

/-- The actors spawned so far by a call of `LoadBrush` and the number of random draws it
has made. -/
structure BrushState where
  Actors : List AActor
  Draws : Nat
  deriving DecidableEq, Repr

/-- A range-based `for` loop whose body may fault. -/
def forEach {α σ : Type} (Body : σ → α → Except Fault σ) : List α → σ → Except Fault σ
  | [], st => .ok st
  | x :: xs, st =>
    match Body st x with
    | .error e => .error e
    | .ok st1 => forEach Body xs st1

/-- The body of the inner loop over the instances of a discrete type (lines 181-204). -/
def PlaceDiscreteInstance (eng : Engine) (s : GameMode) (DataTable : UDataTable)
    (st : BrushState) (Instance : FJsonInstance) : Except Fault BrushState :=
  let Location := GetParsedPos s.LandscapeSize Instance.pos
  let Yaw := Instance.yaw
  match GetRandomMeshRow DataTable (eng.Random st.Draws) with
  | .error e => .error e
  | .ok MeshRow =>
    match MeshRow.StaticMesh, MeshRow.SkeletalMesh with
    | some StaticMesh, _ =>
      .ok ⟨st.Actors ++ [AActor.StaticMeshActor Location Yaw StaticMesh], st.Draws + 1⟩
    | none, some SkeletalMesh =>
      .ok ⟨st.Actors ++ [AActor.SkeletalMeshActor Location Yaw SkeletalMesh], st.Draws + 1⟩
    | none, none => .ok ⟨st.Actors, st.Draws + 1⟩

/-- The body of the loop over `DiscreteDataTableMap` (lines 168-205); `RootJsonObject` is
the shared pointer, dereferenced by `HasField`. -/
def PlaceDiscreteType (eng : Engine) (s : GameMode) (RootJsonObject : Option FJsonObject)
    (st : BrushState) (Iter : String × UDataTable) : Except Fault BrushState :=
  match RootJsonObject with
  | none => .error Fault.NullPointer
  | some Root =>
    if !HasField Root Iter.1 then .ok st
    else forEach (PlaceDiscreteInstance eng s Iter.2) (GetArrayField Root Iter.1) st

/-- The body of the inner loop over the instances of a continuous type (lines 225-263):
the spline through the parsed curve points is resampled by `sampleSpline` and one
`ASplineMeshActor` is added per segment. -/
def PlaceContinuousInstance (eng : Engine) (s : GameMode) (fuel : Nat) (MeshRow : FMeshRow)
    (st : BrushState) (Instance : FJsonInstance) : Except Fault BrushState :=
  let Width := GetRelativeWidth eng s Instance.width
  let Points := Instance.curve.map (GetParsedPos s.LandscapeSize)
  match sampleSpline (eng.GetSplineLength Points) s.ContinuousSpan fuel 0 [] with
  | none => .error Fault.OutOfFuel
  | some Spawned =>
    .ok ⟨st.Actors ++ Spawned.map fun Span =>
          AActor.SplineMeshActor MeshRow.StaticMesh Points Span Width, st.Draws⟩

/-- The body of the loop over `ContinuousDataTableMap` (lines 211-264). -/
def PlaceContinuousType (eng : Engine) (s : GameMode) (fuel : Nat)
    (RootJsonObject : Option FJsonObject)
    (st : BrushState) (Iter : String × UDataTable) : Except Fault BrushState :=
  match RootJsonObject with
  | none => .error Fault.NullPointer
  | some Root =>
    if !HasField Root Iter.1 then .ok st
    else
      match GetRandomMeshRow Iter.2 (eng.Random st.Draws) with
      | .error e => .error e
      | .ok MeshRow =>
        forEach (PlaceContinuousInstance eng s fuel MeshRow) (GetArrayField Root Iter.1)
          ⟨st.Actors, st.Draws + 1⟩

/-- The path of the manifest of task `Task`. -/
def JsonFilePath (s : GameMode) : String :=
  s.DataPath ++ "/" ++ s.Task ++ "/brush.json"

/-- The two placement loops of `LoadBrush` on the root pointer, from an empty `Actors`. -/
def LoadBrushActors (eng : Engine) (fuel : Nat) (s : GameMode)
    (RootJsonObject : Option FJsonObject) : Except Fault BrushState :=
  match forEach (PlaceDiscreteType eng s RootJsonObject) s.DiscreteDataTableMap ⟨[], 0⟩ with
  | .error e => .error e
  | .ok st =>
    forEach (PlaceContinuousType eng s fuel RootJsonObject) s.ContinuousDataTableMap st

/-- Source function `ACloudRenderingGameModeBase::LoadBrush`: the old actors are destroyed,
the manifest is loaded (the flag `LoadJsonFile` returns is not looked at), then the two
placement loops run.  The destruction of the spline component and the bounding box computed at the end
are engine matters and not part of the state. -/
def LoadBrush (eng : Engine) (fuel : Nat) (s : GameMode) : Except Fault GameMode :=
  let RootJsonObject := (LoadJsonFile eng (JsonFilePath s) none).2
  match LoadBrushActors eng fuel s RootJsonObject with
  | .error e => .error e
  | .ok st => .ok { s with Actors := st.Actors, Trace := s.Trace ++ [Event.LoadBrush s.Task] }

/-- Source function `ACloudRenderingGameModeBase::GenSnapshots`: camera poses, captures and
image files are engine effects outside the state; the call is recorded. -/
def GenSnapshots (Num : Nat) (s : GameMode) : GameMode :=
  { s with Trace := s.Trace ++ [Event.GenSnapshots s.Task Num] }

/-- Source function `ACloudRenderingGameModeBase::Tick`. -/
def Tick (eng : Engine) (fuel : Nat) (s : GameMode) : Except Fault GameMode :=
  if s.TaskState = ETaskState.TS_Finish then
    match s.TaskQueue with
    | [] => .ok s
    | Head :: Rest =>
      .ok { s with
            TaskQueue := Rest
            Task := Head
            TaskState := ETaskState.TS_Brush
            Trace := s.Trace ++ [Event.Dequeue Head] }
  else if s.TaskState = ETaskState.TS_Brush then
    match LoadBrush eng fuel s with
    | .error e => .error e
    | .ok s1 => .ok { s1 with TaskState := ETaskState.TS_Snapshot }
  else if s.TaskState = ETaskState.TS_Snapshot then
    .ok { GenSnapshots 6 s with TaskState := ETaskState.TS_Finish }
  else .ok s

/-- A call the engine makes on the game mode after `BeginPlay`: the poll timer firing on a
file system, or a tick with the engine services of that frame. -/
inductive Call
  | Poll (fs : FileSystem)
  | Tick (eng : Engine) (fuel : Nat)

/-- One call. -/
def step (s : GameMode) : Call → Except Fault GameMode
  | Call.Poll fs => .ok (Poll fs s)
  | Call.Tick eng fuel => Tick eng fuel s

/-- A sequence of calls, stopping at the first fault. -/
def run : GameMode → List Call → Except Fault GameMode
  | s, [] => .ok s
  | s, c :: cs =>
    match step s c with
    | .error e => .error e
    | .ok s1 => run s1 cs

/-- The names enqueued, in order. -/
def enqueued : List Event → List String
  | [] => []
  | Event.Enqueue n :: es => n :: enqueued es
  | _ :: es => enqueued es

/-- The names dequeued, in order. -/
def dequeued : List Event → List String
  | [] => []
  | Event.Dequeue n :: es => n :: dequeued es
  | _ :: es => dequeued es

/-- The calls of the processing cycle: everything but `Enqueue`. -/
def processing : List Event → List Event
  | [] => []
  | Event.Enqueue _ :: es => processing es
  | e :: es => e :: processing es

/-- The calls one task receives in a complete cycle. -/
def cycle (Task : String) : List Event :=
  [Event.Dequeue Task, Event.LoadBrush Task, Event.GenSnapshots Task 6]

/-- The calls the task in progress has received in a given state of the cycle. -/
def pending (TaskState : ETaskState) (Task : String) : List Event :=
  match TaskState with
  | ETaskState.TS_Finish => []
  | ETaskState.TS_Brush => [Event.Dequeue Task]
  | ETaskState.TS_Snapshot => [Event.Dequeue Task, Event.LoadBrush Task]

/-- The task in progress, if any. -/
def current (TaskState : ETaskState) (Task : String) : List String :=
  match TaskState with
  | ETaskState.TS_Finish => []
  | _ => [Task]

/-- The invariant of the task pipeline; `Startup` are the names found by `BeginPlay`. -/
structure PipelineInv (Startup : List String) (s : GameMode) : Prop where
  startup_seen : ∀ n ∈ Startup, n ∈ s.LastTasks
  enqueued_seen : ∀ n ∈ enqueued s.Trace, n ∈ s.LastTasks
  enqueued_new : ∀ n ∈ enqueued s.Trace, n ∉ Startup
  enqueued_nodup : (enqueued s.Trace).Nodup
  fifo : enqueued s.Trace = dequeued s.Trace ++ s.TaskQueue
  cycles : ∃ Done : List String,
    processing s.Trace = Done.flatMap cycle ++ pending s.TaskState s.Task
    ∧ dequeued s.Trace = Done ++ current s.TaskState s.Task
  task_origin : s.Task = "" ∨ s.Task ∈ dequeued s.Trace

/-! ## A concrete session, used to instantiate the theorems -/

deriving instance DecidableEq for Except

/-- Data tables with one row each. -/
def sessionTables : DataTables where
  TreeDataTable := some [⟨some "SM_Tree", none⟩]
  GrassDataTable := some [⟨none, some "SK_Grass"⟩]
  RockDataTable := some [⟨some "SM_Rock", none⟩]
  HouseDataTable := some [⟨some "SM_House", none⟩]
  HillDataTable := some [⟨some "SM_Hill", none⟩]
  RoadDataTable := some [⟨some "SM_Road", none⟩]
  RiverDataTable := some [⟨some "SM_River", none⟩]

/-- The data directory at startup: one task directory, `old`. -/
def startupDisk : FileSystem where
  FindFiles := fun _ => ["old"]
  FileExists := fun _ => true

/-- The data directory later on: two new task directories, `a` listed twice. -/
def laterDisk : FileSystem where
  FindFiles := fun _ => ["old", "a", "b", "a"]
  FileExists := fun _ => true

/-- A manifest with one tree and one road. -/
def sessionManifest : FJsonObject :=
  [("tree", [⟨"0.25,0.5", 90, 0, []⟩]), ("road", [⟨"", 0, 2, ["0,0", "1,1"]⟩])]

/-- Engine services under which every manifest opens as `sessionManifest` and every spline
has length 1000. -/
def sessionEngine : Engine where
  OpenJson := fun _ => some (true, sessionManifest)
  Random := fun _ => 0
  GetSplineLength := fun _ => 1000
  Size := fun _ => 50000

/-- The calls of the session: a poll, a full cycle of three ticks, another poll, a tick. -/
def sessionCalls : List Call :=
  [Call.Poll laterDisk, Call.Tick sessionEngine 10, Call.Tick sessionEngine 10,
   Call.Tick sessionEngine 10, Call.Poll laterDisk, Call.Tick sessionEngine 10]

/-- The state the session ends in. -/
def sessionEnd : GameMode where
  LandscapeSize := ⟨40000, 30000⟩
  ContinuousSpan := 400
  TreeDataTable := some [⟨some "SM_Tree", none⟩]
  GrassDataTable := some [⟨none, some "SK_Grass"⟩]
  RockDataTable := some [⟨some "SM_Rock", none⟩]
  HouseDataTable := some [⟨some "SM_House", none⟩]
  HillDataTable := some [⟨some "SM_Hill", none⟩]
  RoadDataTable := some [⟨some "SM_Road", none⟩]
  RiverDataTable := some [⟨some "SM_River", none⟩]
  DiscreteDataTableMap :=
    [("tree", some [⟨some "SM_Tree", none⟩]), ("grass", some [⟨none, some "SK_Grass"⟩]),
     ("rock", some [⟨some "SM_Rock", none⟩]), ("house", some [⟨some "SM_House", none⟩]),
     ("mount", some [⟨some "SM_Hill", none⟩])]
  ContinuousDataTableMap :=
    [("road", some [⟨some "SM_Road", none⟩]), ("river", some [⟨some "SM_River", none⟩])]
  Actors :=
    [AActor.StaticMeshActor ⟨-10000, 0, 0⟩ 90 "SM_Tree",
     AActor.SplineMeshActor (some "SM_Road") [⟨-20000, -15000, 0⟩, ⟨20000, 15000, 0⟩]
       ⟨0, 400⟩ 250,
     AActor.SplineMeshActor (some "SM_Road") [⟨-20000, -15000, 0⟩, ⟨20000, 15000, 0⟩]
       ⟨400, 800⟩ 250]
  DataPath := "/Game/Content/Data"
  LastTasks := ["old", "a", "b"]
  TaskQueue := []
  Task := "b"
  TaskState := ETaskState.TS_Brush
  Trace :=
    [Event.Enqueue "a", Event.Enqueue "b", Event.Dequeue "a", Event.LoadBrush "a",
     Event.GenSnapshots "a" 6, Event.Dequeue "b"]

/-- Engine services under which no manifest can be opened. -/
def missingEngine : Engine where
  OpenJson := fun _ => none
  Random := fun _ => 0
  GetSplineLength := fun _ => 1000
  Size := fun _ => 50000

/-- A manifest whose `tree` array holds an instance with a position string without a comma
and a well-formed one. -/
def malformedManifest : FJsonObject :=
  [("tree", [⟨"abc", 30, 0, []⟩, ⟨"0.25,0.5", 90, 0, []⟩])]

/-- The game mode with the type maps restricted to the types the root has a field for. -/
def presentTypesOnly (Root : FJsonObject) (s : GameMode) : GameMode :=
  { s with
    DiscreteDataTableMap := s.DiscreteDataTableMap.filter fun Iter => HasField Root Iter.1
    ContinuousDataTableMap := s.ContinuousDataTableMap.filter fun Iter => HasField Root Iter.1 }

/-- Fuel that lets every resampling loop of a call of `LoadBrush` on the root reach its
`break`: one more than the largest segment count among the instances of the root. -/
def brushFuel (eng : Engine) (s : GameMode) (Root : FJsonObject) : Nat :=
  ((Root.flatMap fun Field => Field.2).map fun Instance =>
      segmentCount (eng.GetSplineLength (Instance.curve.map (GetParsedPos s.LandscapeSize)))
        s.ContinuousSpan).foldr max 0 + 1

/-- The data table of a type is assigned and has a row. -/
def hasRows (DataTable : UDataTable) : Prop :=
  ∃ MeshRows : List FMeshRow, DataTable = some MeshRows ∧ MeshRows ≠ []

/-! ## Decimal numerals -/

/-- A decimal numeral as a position string writes it: an optional minus sign, the digits
before the point, the digits after it (with the point when there are any) and an optional
exponent with its sign and digits. -/
structure Numeral where
  negative : Bool
  whole : List (Fin 10)
  fraction : List (Fin 10)
  exponent : Option (Bool × List (Fin 10))

/-- The character of a decimal digit. -/
def digitChar (d : Fin 10) : Char :=
  Char.ofNat (48 + d.val)

/-- The number a run of decimal digits denotes. -/
def digitsValue (ds : List (Fin 10)) : Nat :=
  ds.foldl (fun acc d => acc * 10 + d.val) 0

/-- The text of the exponent part. -/
def exponentText : Option (Bool × List (Fin 10)) → List Char
  | none => []
  | some (negative, ds) => 'e' :: ((if negative then ['-'] else []) ++ ds.map digitChar)

/-- The power of ten the exponent part denotes. -/
def exponentValue : Option (Bool × List (Fin 10)) → ℤ
  | none => 0
  | some (negative, ds) => if negative then -(digitsValue ds : ℤ) else (digitsValue ds : ℤ)

/-- The text of the point and the digits after it. -/
def fractionText (ds : List (Fin 10)) : List Char :=
  if ds.isEmpty then [] else '.' :: ds.map digitChar

/-- The text of the numeral after its sign. -/
def Numeral.unsignedText (N : Numeral) : List Char :=
  N.whole.map digitChar ++ (fractionText N.fraction ++ exponentText N.exponent)

/-- The text of the numeral. -/
def Numeral.text (N : Numeral) : List Char :=
  (if N.negative then ['-'] else []) ++ N.unsignedText

/-- The number the numeral denotes after its sign. -/
def Numeral.unsignedValue (N : Numeral) : ℚ :=
  ((digitsValue N.whole : ℚ) + (digitsValue N.fraction : ℚ) / 10 ^ N.fraction.length)
    * 10 ^ exponentValue N.exponent

/-- The number the numeral denotes. -/
def Numeral.value (N : Numeral) : ℚ :=
  if N.negative then -N.unsignedValue else N.unsignedValue

/-- A text that does not go on with a digit. -/
def stopsDigits (rest : List Char) : Prop :=
  ∀ c cs, rest = c :: cs → c.isDigit = false

/-! ## `GetParsedPos` in 32-bit `float` arithmetic

The engine's `FVector`, `FVector2D`, `FMath` and `FCString::Atof` work on `float` (IEEE 754
binary32, round to nearest, ties to even); `strtod` reads a `double` (binary64).  A value is
the rational it denotes, an infinity or NaN; the sign of zero is not kept.  Every operation
rounds its own result (no fused multiply-add). -/

namespace Float32

/-- A value of a binary floating-point format. -/
inductive FloatVal
  /-- A finite value, given by the rational it denotes. -/
  | finite (q : ℚ)
  /-- Plus infinity, or minus infinity when `negative`. -/
  | inf (negative : Bool)
  /-- Not a number. -/
  | nan
  deriving DecidableEq, Repr

/-- The floor of the binary logarithm of `n`, by repeated halving; `fuel` bounds the number
of halvings. -/
def log2Aux : Nat → Nat → Nat
  | 0, _ => 0
  | fuel + 1, n => if 2 ≤ n then log2Aux fuel (n / 2) + 1 else 0

/-- The floor of the binary logarithm of a positive natural number. -/
def natLog2 (n : Nat) : Nat :=
  log2Aux n n

/-- The exponent of the leading bit of a non-zero rational: the `e` with
`2^e ≤ |q| < 2^(e+1)`. -/
def ilog2 (q : ℚ) : ℤ :=
  if (2 : ℚ) ^ ((natLog2 q.num.natAbs : ℤ) - (natLog2 q.den : ℤ)) ≤ |q| then
    (natLog2 q.num.natAbs : ℤ) - (natLog2 q.den : ℤ)
  else (natLog2 q.num.natAbs : ℤ) - (natLog2 q.den : ℤ) - 1

/-- Rounding to the nearest integer, a tie going to the even one. -/
def roundHalfEven (r : ℚ) : ℤ :=
  if r - ⌊r⌋ < 1 / 2 then ⌊r⌋
  else if 1 / 2 < r - ⌊r⌋ then ⌊r⌋ + 1
  else if ⌊r⌋ % 2 = 0 then ⌊r⌋ else ⌊r⌋ + 1

/-- The unit in the last place at `q` in the format of precision `p` whose smallest normal
exponent is `emin`. -/
def ulp (p : ℕ) (emin : ℤ) (q : ℚ) : ℚ :=
  2 ^ (max (ilog2 q) emin - ((p : ℤ) - 1))

/-- Rounding to the format of precision `p` and exponent range `emin .. emax`: to the nearest
multiple of the unit in the last place, ties to even, and to an infinity when the result
reaches `2^(emax+1)`. -/
def roundFormat (p : ℕ) (emin emax : ℤ) (q : ℚ) : FloatVal :=
  if q = 0 then .finite 0
  else if (2 : ℚ) ^ (emax + 1) ≤ |(roundHalfEven (q / ulp p emin q) : ℚ) * ulp p emin q| then
    .inf (decide (q < 0))
  else .finite ((roundHalfEven (q / ulp p emin q) : ℚ) * ulp p emin q)

/-- The finite numbers of a format: an integer of fewer than `p` bits times a power of two
not below the smallest one, within the range. -/
def Representable (p : ℕ) (emin emax : ℤ) (x : ℚ) : Prop :=
  ∃ n k : ℤ, x = (n : ℚ) * 2 ^ k ∧ |n| < 2 ^ p ∧ emin - ((p : ℤ) - 1) ≤ k
    ∧ |x| < 2 ^ (emax + 1)

/-- Negation of a `float` value. -/
def fneg : FloatVal → FloatVal
  | .finite q => .finite (-q)
  | .inf negative => .inf (!negative)
  | .nan => .nan

/-- Rounding to binary32 (`float`): 24 bits of precision, exponents from -126 to 127. -/
def roundSingle (q : ℚ) : FloatVal :=
  roundFormat 24 (-126) 127 q

/-- Rounding to binary64 (`double`): 53 bits of precision, exponents from -1022 to 1023. -/
def roundDouble (q : ℚ) : FloatVal :=
  roundFormat 53 (-1022) 1023 q

/-- The conversion `(float)` of a `double`. -/
def toSingle : FloatVal → FloatVal
  | .finite q => roundSingle q
  | v => v

/-- Addition of two `float` values. -/
def fadd (a b : FloatVal) : FloatVal :=
  match a, b with
  | .nan, _ => .nan
  | _, .nan => .nan
  | .inf s, .inf t => if s = t then .inf s else .nan
  | .inf s, .finite _ => .inf s
  | .finite _, .inf t => .inf t
  | .finite x, .finite y => roundSingle (x + y)

/-- Subtraction of two `float` values. -/
def fsub (a b : FloatVal) : FloatVal :=
  fadd a (fneg b)

/-- Multiplication of two `float` values. -/
def fmul (a b : FloatVal) : FloatVal :=
  match a, b with
  | .nan, _ => .nan
  | _, .nan => .nan
  | .inf s, .inf t => .inf (s != t)
  | .inf s, .finite y => if y = 0 then .nan else .inf (s != decide (y < 0))
  | .finite x, .inf t => if x = 0 then .nan else .inf (decide (x < 0) != t)
  | .finite x, .finite y => roundSingle (x * y)

/-- Division of two `float` values; a zero divisor counts as positive zero. -/
def fdiv (a b : FloatVal) : FloatVal :=
  match a, b with
  | .nan, _ => .nan
  | _, .nan => .nan
  | .inf _, .inf _ => .nan
  | .inf s, .finite y => .inf (s != decide (y < 0))
  | .finite _, .inf _ => .finite 0
  | .finite x, .finite y =>
    if y = 0 then (if x = 0 then .nan else .inf (decide (x < 0)))
    else roundSingle (x / y)

/-- The comparison `a < b` of two `float` values; false when either is NaN. -/
def flt (a b : FloatVal) : Bool :=
  match a, b with
  | .nan, _ => false
  | _, .nan => false
  | .inf s, .inf t => s && !t
  | .inf s, .finite _ => s
  | .finite _, .inf t => !t
  | .finite x, .finite y => decide (x < y)

/-- The comparison `a <= b` of two `float` values; false when either is NaN. -/
def fle (a b : FloatVal) : Bool :=
  match a, b with
  | .nan, _ => false
  | _, .nan => false
  | .inf s, .inf t => s || !t
  | .inf s, .finite _ => s
  | .finite _, .inf t => !t
  | .finite x, .finite y => decide (x ≤ y)

/-- Engine function `FMath::Abs` on a `float`. -/
def fabs : FloatVal → FloatVal
  | .finite q => .finite |q|
  | .inf _ => .inf false
  | .nan => .nan

/-- The value of a hexadecimal digit. -/
def hexDigitValue (c : Char) : Option Nat :=
  if c.isDigit then some (c.toNat - 48)
  else if 97 ≤ c.toNat ∧ c.toNat ≤ 102 then some (c.toNat - 87)
  else if 65 ≤ c.toNat ∧ c.toNat ≤ 70 then some (c.toNat - 55)
  else none

/-- Reads a run of hexadecimal digits: the number of digits read, their value added to
`acc` in base sixteen, and the unread rest. -/
def readHexDigits : List Char → Nat → Nat → Nat × Nat × List Char
  | [], n, acc => (n, acc, [])
  | c :: cs, n, acc =>
    match hexDigitValue c with
    | some d => readHexDigits cs (n + 1) (acc * 16 + d)
    | none => (n, acc, c :: cs)

/-- The binary exponent part of a hexadecimal floating literal: `p` or `P`, an optional
sign and at least one decimal digit; `0` when the text does not continue with one. -/
def readBinaryExponent : List Char → ℤ
  | [] => 0
  | c :: cs =>
    if c = 'p' || c = 'P' then
      match cs with
      | '-' :: ds => match readDigits ds 0 0 with
        | (0, _, _) => 0
        | (_, v, _) => -(v : ℤ)
      | '+' :: ds => match readDigits ds 0 0 with
        | (0, _, _) => 0
        | (_, v, _) => (v : ℤ)
      | ds => match readDigits ds 0 0 with
        | (0, _, _) => 0
        | (_, v, _) => (v : ℤ)
    else 0

/-- The value of the text after `0x`: hexadecimal digits with an optional point and an
optional binary exponent; `none` when there is no hexadecimal digit. -/
def readHex (s : List Char) : Option ℚ :=
  match readHexDigits s 0 0 with
  | (ni, vi, rest) =>
    match rest with
    | '.' :: fs =>
      match readHexDigits fs 0 0 with
      | (nf, vf, rest') =>
        if ni + nf = 0 then none
        else some (((vi : ℚ) + (vf : ℚ) / 16 ^ nf) * 2 ^ readBinaryExponent rest')
    | _ =>
      if ni = 0 then none else some ((vi : ℚ) * 2 ^ readBinaryExponent rest)

/-- Whether the text starts with the given lower-case letters, in either case. -/
def startsWithNoCase : List Char → List Char → Bool
  | [], _ => true
  | _ :: _, [] => false
  | p :: ps, c :: cs => p == c.toLower && startsWithNoCase ps cs

/-- The value the text denotes after white space and sign, before any rounding: `inf` or
`infinity`, `nan`, a hexadecimal literal after `0x`, or a decimal literal; `0` when no
number can be read. -/
def readMagnitude (s : List Char) : FloatVal :=
  if startsWithNoCase ['i', 'n', 'f'] s then .inf false
  else if startsWithNoCase ['n', 'a', 'n'] s then .nan
  else
    match s with
    | '0' :: x :: rest =>
      if x = 'x' ∨ x = 'X' then
        match readHex rest with
        | some q => .finite q
        | none => .finite 0
      else .finite (readUnsigned s)
    | _ => .finite (readUnsigned s)

/-- The value the text denotes, before any rounding. -/
def readNumber (s : List Char) : FloatVal :=
  match s.dropWhile isSpace with
  | '-' :: rest => fneg (readMagnitude rest)
  | '+' :: rest => readMagnitude rest
  | rest => readMagnitude rest

/-- C library function `strtod`: the value the text denotes, rounded to `double`. -/
def strtod (s : List Char) : FloatVal :=
  match readNumber s with
  | .finite q => roundDouble q
  | v => v

/-- Engine function `FCString::Atof`: `strtod` converted to `float`. -/
def Atof (s : List Char) : FloatVal :=
  toSingle (strtod s)

/-- Engine constant `SMALL_NUMBER` (`1.e-8f`). -/
def SMALL_NUMBER : FloatVal :=
  roundSingle (1 / 10 ^ 8)

/-- Engine function `FMath::IsNearlyZero` with its default tolerance. -/
def IsNearlyZero (Value : FloatVal) : Bool :=
  fle (fabs Value) SMALL_NUMBER

/-- Engine function `FMath::Clamp`. -/
def Clamp (X Min Max : FloatVal) : FloatVal :=
  if flt X Min then Min else if flt X Max then X else Max

/-- Engine function `FMath::GetRangePct(MinValue, MaxValue, Value)`. -/
def GetRangePct (MinValue MaxValue Value : FloatVal) : FloatVal :=
  let Divisor := fsub MaxValue MinValue
  if IsNearlyZero Divisor then
    if fle MaxValue Value then .finite 1 else .finite 0
  else fdiv (fsub Value MinValue) Divisor

/-- Engine function `FMath::Lerp`. -/
def Lerp (A B Alpha : FloatVal) : FloatVal :=
  fadd A (fmul Alpha (fsub B A))

/-- Engine function `UKismetMathLibrary::MapRangeClamped`
(`FMath::GetMappedRangeValueClamped`). -/
def MapRangeClamped (Value InRangeA InRangeB OutRangeA OutRangeB : FloatVal) : FloatVal :=
  Lerp OutRangeA OutRangeB
    (Clamp (GetRangePct InRangeA InRangeB Value) (.finite 0) (.finite 1))

/-- Engine type `FVector2D`, of `float` components. -/
structure FVector2D where
  X : FloatVal
  Y : FloatVal
  deriving DecidableEq, Repr

/-- Engine type `FVector`, of `float` components. -/
structure FVector where
  X : FloatVal
  Y : FloatVal
  Z : FloatVal
  deriving DecidableEq, Repr

/-- Source function `ACloudRenderingGameModeBase::GetParsedPos` in `float` arithmetic. -/
def GetParsedPos (LandscapeSize : FVector2D) (PosStr : String) : FVector :=
  let Strs : List Char × List Char :=
    match Split PosStr.data with
    | some (XStr, YStr) => (XStr, YStr)
    | none => ([], [])
  let X := Atof Strs.1
  let Y := Atof Strs.2
  ⟨MapRangeClamped X (.finite 0) (.finite 1)
      (fmul (fneg LandscapeSize.X) (.finite (1 / 2))) (fmul LandscapeSize.X (.finite (1 / 2))),
   MapRangeClamped Y (.finite 0) (.finite 1)
      (fmul (fneg LandscapeSize.Y) (.finite (1 / 2))) (fmul LandscapeSize.Y (.finite (1 / 2))),
   .finite 0⟩

/-- One coordinate of `GetParsedPos`: the number read from its part of the string, mapped
onto the extent of the landscape of the given size. -/
def coordinate (Size : FloatVal) (Str : List Char) : FloatVal :=
  MapRangeClamped (Atof Str) (.finite 0) (.finite 1)
    (fmul (fneg Size) (.finite (1 / 2))) (fmul Size (.finite (1 / 2)))

end Float32

/-! ## Theorems: spline resampling -/

theorem fullSegments_succ (S : ℚ) (k : Nat) :
    fullSegments S (k + 1) = fullSegments S k ++ [⟨(k : ℚ) * S, ((k : ℚ) + 1) * S⟩] := by
  simp [fullSegments, List.range_succ]

/-- Below the segment count one more full segment fits with a tenth of a span to spare. -/
theorem lt_segmentCount_iff (L S : ℚ) (hS : 0 < S) (k : Nat) :
    k < segmentCount L S ↔ ((k : ℚ) + 1) * S + S * (1 / 10) ≤ L := by
  unfold segmentCount
  rw [Int.lt_toNat]
  constructor
  · intro h
    have h1 : ((k : ℤ) + 1) ≤ ⌊L / S - 1 / 10⌋ := by
      rcases lt_max_iff.mp h with h0 | h0
      · omega
      · omega
    have h2 : (((k : ℤ) + 1 : ℤ) : ℚ) ≤ L / S - 1 / 10 := Int.le_floor.mp h1
    push_cast at h2
    have h3 : (k : ℚ) + 1 + 1 / 10 ≤ L / S := by linarith
    have h4 := (le_div_iff₀ hS).mp h3
    linarith
  · intro h
    have h3 : (k : ℚ) + 1 + 1 / 10 ≤ L / S := by
      rw [le_div_iff₀ hS]
      linarith
    have h1 : ((k : ℤ) + 1) ≤ ⌊L / S - 1 / 10⌋ := by
      apply Int.le_floor.mpr
      push_cast
      linarith
    apply lt_max_iff.mpr
    right
    omega

/-- The loop started at distance `k * S` with the first `k` full segments spawned. -/
theorem sampleSpline_from (L S : ℚ) (hS : 0 < S) :
    ∀ (fuel k : Nat), k ≤ segmentCount L S → segmentCount L S - k < fuel →
      sampleSpline L S fuel ((k : ℚ) * S) (fullSegments S k)
        = some (fullSegments S (segmentCount L S)) := by
  intro fuel
  induction fuel with
  | zero => intro k _ hf; omega
  | succ fuel ih =>
    intro k hk hf
    rcases Nat.lt_or_ge k (segmentCount L S) with hlt | hge
    · have hfit := (lt_segmentCount_iff L S hS k).mp hlt
      have hmin : min ((k : ℚ) * S + S) L = ((k : ℚ) + 1) * S := by
        rw [min_eq_left (by linarith)]
        ring
      have hnot : ¬ (L - ((k : ℚ) + 1) * S < S * (1 / 10)) := by
        intro h
        linarith
      have hnext := ih (k + 1) hlt (by omega)
      rw [fullSegments_succ] at hnext
      push_cast at hnext
      simp only [sampleSpline, hmin, hnot, if_false]
      exact hnext
    · have hk' : k = segmentCount L S := le_antisymm hk hge
      have hno : ¬ (((k : ℚ) + 1) * S + S * (1 / 10) ≤ L) := by
        intro h
        have := (lt_segmentCount_iff L S hS k).mpr h
        omega
      have hbrk : L - min ((k : ℚ) * S + S) L < S * (1 / 10) := by
        rcases le_total ((k : ℚ) * S + S) L with h | h
        · rw [min_eq_left h]
          have : ((k : ℚ) + 1) * S = (k : ℚ) * S + S := by ring
          linarith [not_le.mp hno]
        · rw [min_eq_right h]
          linarith
      simp only [sampleSpline, hbrk, if_true]
      rw [hk']

/-- With a span that is not positive the loop variable never rises above `0` and the
test of the `break` never succeeds. -/
theorem sampleSpline_diverges (L S : ℚ) (hL : 0 ≤ L) (hS : S ≤ 0) :
    ∀ (fuel : Nat) (SplineLength : ℚ) (Spawned : List Segment), SplineLength ≤ 0 →
      sampleSpline L S fuel SplineLength Spawned = none := by
  intro fuel
  induction fuel with
  | zero => intro _ _ _; rfl
  | succ fuel ih =>
    intro cur acc hcur
    have hmin : min (cur + S) L = cur + S := min_eq_left (by linarith)
    have hnot : ¬ (L - (cur + S) < S * (1 / 10)) := by
      intro h
      linarith
    simp only [sampleSpline, hmin, hnot, if_false]
    exact ih _ _ (by linarith)

/-- C9: in exact arithmetic, for `L ≥ 0` and `S > 0` the loop terminates (any fuel above the
segment count suffices) having spawned exactly `n = max(0, floor(L/S - 1/10))` segments, the
`k`-th spanning `[(k-1)*S, k*S]`; every spawned segment has length exactly `S` and ends
strictly before `L` (it was not clamped).  For `S ≤ 0` the loop does not terminate: no
amount of fuel reaches the `break`. -/
theorem sampleSpline_segment_count (L S : ℚ) (hL : 0 ≤ L) :
    (0 < S →
      (∀ fuel, segmentCount L S < fuel →
        sampleSpline L S fuel 0 [] = some (fullSegments S (segmentCount L S)))
      ∧ (fullSegments S (segmentCount L S)).length = segmentCount L S
      ∧ (∀ k, k < segmentCount L S →
          (fullSegments S (segmentCount L S))[k]? = some ⟨(k : ℚ) * S, ((k : ℚ) + 1) * S⟩)
      ∧ (∀ seg ∈ fullSegments S (segmentCount L S),
          seg.End - seg.Start = S ∧ seg.End < L))
    ∧ (S ≤ 0 → ∀ fuel, sampleSpline L S fuel 0 [] = none) := by
  refine ⟨fun hS => ⟨?_, ?_, ?_, ?_⟩, fun hS fuel => ?_⟩
  · intro fuel hf
    have h := sampleSpline_from L S hS fuel 0 (Nat.zero_le _) (by omega)
    simpa [fullSegments] using h
  · simp [fullSegments]
  · intro k hk
    simp [fullSegments, List.getElem?_range, hk]
  · intro seg hseg
    simp only [fullSegments, List.mem_map, List.mem_range] at hseg
    obtain ⟨k, hk, rfl⟩ := hseg
    have hfit := (lt_segmentCount_iff L S hS k).mp hk
    refine ⟨by ring, ?_⟩
    show ((k : ℚ) + 1) * S < L
    nlinarith
  · exact sampleSpline_diverges L S hL hS fuel 0 [] le_rfl

/-- Witness for C9: a path of length 1000 with span 400 gets the two segments
`[0,400]` and `[400,800]`; a path of length 0 with span 0 never leaves the loop. -/
theorem sampleSpline_segment_count_witness :
    sampleSpline 1000 400 3 0 [] = some [⟨0, 400⟩, ⟨400, 800⟩]
    ∧ sampleSpline 0 0 5 0 [] = none := by
  have hn : segmentCount 1000 400 = 2 := by
    unfold segmentCount
    norm_num
    rfl
  have h := (sampleSpline_segment_count 1000 400 (by norm_num)).1 (by norm_num)
  have h0 := (sampleSpline_segment_count 0 0 le_rfl).2 le_rfl 5
  refine ⟨?_, h0⟩
  have h3 := h.1 3 (by omega)
  rw [h3, hn]
  norm_num [fullSegments, List.range_succ]

theorem lastEnd_fullSegments (S : ℚ) (n : Nat) : lastEnd (fullSegments S n) = (n : ℚ) * S := by
  cases n with
  | zero => simp [lastEnd, fullSegments]
  | succ k =>
    rw [fullSegments_succ]
    simp only [lastEnd, List.getLast?_append, List.getLast?_singleton, Option.or]
    push_cast
    ring

/-- What the loop leaves without a segment, for a positive span and a path of at least a
tenth of a span: never less than a tenth of the span, and less than a span and a tenth. -/
theorem sampleSpline_remainder (L S : ℚ) (hS : 0 < S) (hL : S * (1 / 10) ≤ L) (fuel : Nat)
    (hf : segmentCount L S < fuel) :
    ∃ Spawned, sampleSpline L S fuel 0 [] = some Spawned
      ∧ S * (1 / 10) ≤ L - lastEnd Spawned
      ∧ L - lastEnd Spawned < S + S * (1 / 10) := by
  have h := sampleSpline_from L S hS fuel 0 (Nat.zero_le _) (by omega)
  have h0 : sampleSpline L S fuel 0 [] = some (fullSegments S (segmentCount L S)) := by
    simpa [fullSegments] using h
  refine ⟨_, h0, ?_, ?_⟩
  · rw [lastEnd_fullSegments]
    cases hn : segmentCount L S with
    | zero => simpa using hL
    | succ k =>
      have hk := (lt_segmentCount_iff L S hS k).mp (by omega)
      push_cast
      linarith
  · rw [lastEnd_fullSegments]
    have hno : ¬ ((((segmentCount L S : Nat) : ℚ) + 1) * S + S * (1 / 10) ≤ L) := by
      intro hle
      have := (lt_segmentCount_iff L S hS (segmentCount L S)).mpr hle
      omega
    have := not_le.mp hno
    linarith

/-- C1 (evaluation at the failing input): a path of length 400 resampled with the default
span 400 leaves the loop at its first test with no segment spawned, so the whole path
(400, not less than 40) is left without a segment; a path of length 800 gets the segment
`[0, 400]` only and its second half (400 again) is left without one. -/
theorem sampleSpline_drops_full_span :
    sampleSpline 400 400 1 0 [] = some []
    ∧ lastEnd [] = 0
    ∧ ¬ ((400 : ℚ) - lastEnd [] < 1 / 10 * 400)
    ∧ sampleSpline 800 400 2 0 [] = some [⟨0, 400⟩]
    ∧ ¬ ((800 : ℚ) - lastEnd [⟨0, 400⟩] < 1 / 10 * 400) := by
  refine ⟨by decide!, rfl, by decide!, by decide!, by decide!⟩

/-! ## Theorems: coordinate mapping -/

theorem GetRangePct_unit (Value : ℚ) : GetRangePct 0 1 Value = Value := by
  have h : ¬ (|(1 : ℚ) - 0| ≤ 1 / 10 ^ 8) := by norm_num
  simp only [GetRangePct, h, if_false]
  ring

/-! ### Reading a decimal numeral -/

theorem digitChar_facts : ∀ d : Fin 10,
    (digitChar d).isDigit = true ∧ (digitChar d).toNat - 48 = d.val
    ∧ digitChar d ≠ '-' ∧ digitChar d ≠ '+' ∧ digitChar d ≠ '.' ∧ digitChar d ≠ ','
    ∧ isSpace (digitChar d) = false ∧ (digitChar d).toLower = digitChar d
    ∧ digitChar d ≠ 'i' ∧ digitChar d ≠ 'n' ∧ digitChar d ≠ 'x' ∧ digitChar d ≠ 'X' := by
  decide

theorem readDigits_digits (ds : List (Fin 10)) (rest : List Char) (hrest : stopsDigits rest) :
    ∀ n acc, readDigits (ds.map digitChar ++ rest) n acc
      = (n + ds.length, ds.foldl (fun a d => a * 10 + d.val) acc, rest) := by
  induction ds with
  | nil =>
    intro n acc
    cases rest with
    | nil => rfl
    | cons c cs => simp [readDigits, hrest c cs rfl]
  | cons d ds ih =>
    intro n acc
    obtain ⟨h1, h2, _⟩ := digitChar_facts d
    simp only [List.map_cons, List.cons_append, readDigits, h1, if_true]
    rw [h2]
    simp only [List.append_eq]
    rw [ih]
    simp only [List.length_cons, List.foldl_cons, Prod.mk.injEq, and_true]
    omega

theorem readDigits_all (ds : List (Fin 10)) :
    readDigits (ds.map digitChar) 0 0 = (ds.length, digitsValue ds, []) := by
  have := readDigits_digits ds [] (fun c cs h => by cases h) 0 0
  simpa [digitsValue] using this

theorem readExponent_text (E : Option (Bool × List (Fin 10))) :
    readExponent (exponentText E) = exponentValue E := by
  cases E with
  | none => rfl
  | some e =>
    obtain ⟨negative, ds⟩ := e
    cases negative with
    | true =>
      simp only [exponentText, if_true, List.singleton_append, readExponent, Bool.or_eq_true,
        decide_eq_true_eq, true_or, readDigits_all, exponentValue]
      cases ds with
      | nil => simp [digitsValue]
      | cons d ds => simp
    | false =>
      cases ds with
      | nil => simp [exponentText, readExponent, readDigits, exponentValue, digitsValue]
      | cons d ds =>
        obtain ⟨_, _, h3, h4, _⟩ := digitChar_facts d
        simp only [exponentText, Bool.false_eq_true, if_false, List.nil_append, readExponent,
          Bool.or_eq_true, decide_eq_true_eq, true_or, if_true, exponentValue]
        split
        · next heq =>
          simp only [List.map_cons, List.cons.injEq] at heq
          exact absurd heq.1 h3
        · next heq =>
          simp only [List.map_cons, List.cons.injEq] at heq
          exact absurd heq.1 h4
        · rw [readDigits_all]
          simp

theorem stopsDigits_exponentText (E : Option (Bool × List (Fin 10))) :
    stopsDigits (exponentText E) := by
  intro c cs h
  cases E with
  | none => cases h
  | some e =>
    obtain ⟨negative, ds⟩ := e
    simp only [exponentText, List.cons.injEq] at h
    rw [← h.1]
    decide

theorem readUnsigned_text (N : Numeral) : readUnsigned N.unsignedText = N.unsignedValue := by
  unfold Numeral.unsignedText Numeral.unsignedValue readUnsigned
  cases hf : N.fraction with
  | nil =>
    have hstop : stopsDigits (fractionText [] ++ exponentText N.exponent) := by
      simpa [fractionText] using stopsDigits_exponentText N.exponent
    rw [readDigits_digits _ _ hstop]
    simp only [fractionText, List.isEmpty_nil, if_true, List.nil_append, zero_add]
    split
    · next heq =>
      exfalso
      have := stopsDigits_exponentText N.exponent
      cases hE : N.exponent with
      | none => rw [hE] at heq; cases heq
      | some e =>
        obtain ⟨negative, ds⟩ := e
        rw [hE] at heq
        simp [exponentText] at heq
    · simp only [digitsValue, List.foldl_nil, Nat.cast_zero, zero_div, add_zero,
        List.length_nil, pow_zero, readExponent_text]
      by_cases hw : N.whole.length = 0
      · have : N.whole = [] := List.length_eq_zero.mp hw
        simp [this]
      · simp [hw]
  | cons d ds =>
    have hstop : stopsDigits (fractionText (d :: ds) ++ exponentText N.exponent) := by
      intro c cs h
      simp only [fractionText, List.isEmpty_cons, Bool.false_eq_true, if_false,
        List.cons_append, List.cons.injEq] at h
      rw [← h.1]
      decide
    rw [readDigits_digits _ _ hstop]
    simp only [fractionText, List.isEmpty_cons, Bool.false_eq_true, if_false, List.cons_append,
      zero_add]
    rw [readDigits_digits _ _ (stopsDigits_exponentText N.exponent)]
    simp only [zero_add, List.length_cons, readExponent_text]
    rw [if_neg (by omega)]
    rfl

theorem head_unsignedText (N : Numeral) (c : Char) (cs : List Char)
    (h : N.unsignedText = c :: cs) : (∃ d, c = digitChar d) ∨ c = '.' ∨ c = 'e' := by
  unfold Numeral.unsignedText at h
  cases hw : N.whole with
  | cons d ds =>
    rw [hw] at h
    simp only [List.map_cons, List.cons_append, List.cons.injEq] at h
    exact Or.inl ⟨d, h.1.symm⟩
  | nil =>
    rw [hw] at h
    simp only [List.map_nil, List.nil_append] at h
    unfold fractionText at h
    split at h
    · cases hE : N.exponent with
      | none => simp [hE, exponentText] at h
      | some e =>
        obtain ⟨negative, ds⟩ := e
        simp only [hE, exponentText, List.nil_append, List.cons.injEq] at h
        exact Or.inr (Or.inr h.1.symm)
    · simp only [List.cons_append, List.cons.injEq] at h
      exact Or.inr (Or.inl h.1.symm)

/-- In exact arithmetic `Atof` reads a decimal numeral as the number it denotes. -/
theorem Atof_text (N : Numeral) : Atof N.text = N.value := by
  unfold Atof Numeral.text Numeral.value
  cases hn : N.negative with
  | true =>
    have hs : isSpace '-' = false := by decide
    simp only [if_true, List.singleton_append, List.dropWhile_cons, hs, Bool.false_eq_true,
      if_false, readUnsigned_text]
  | false =>
    simp only [Bool.false_eq_true, if_false, List.nil_append]
    cases ht : N.unsignedText with
    | nil =>
      rw [← readUnsigned_text, ht]
      rfl
    | cons c cs =>
      have hc : isSpace c = false ∧ c ≠ '-' ∧ c ≠ '+' := by
        rcases head_unsignedText N c cs ht with ⟨d, hd⟩ | h1 | h1
        · obtain ⟨_, _, h3, h4, _, _, h7, _⟩ := digitChar_facts d
          rw [hd]
          exact ⟨h7, h3, h4⟩
        · rw [h1]; decide
        · rw [h1]; decide
      simp only [List.dropWhile_cons, hc.1, Bool.false_eq_true, if_false]
      split
      · next heq =>
        simp only [List.cons.injEq] at heq
        exact absurd heq.1 hc.2.1
      · next heq =>
        simp only [List.cons.injEq] at heq
        exact absurd heq.1 hc.2.2
      · rw [← ht, readUnsigned_text]

/-! ## Theorems: rounding to a binary format -/

namespace Float32

theorem log2Aux_spec : ∀ (fuel n : Nat), 0 < n → n ≤ fuel →
    2 ^ log2Aux fuel n ≤ n ∧ n < 2 ^ (log2Aux fuel n + 1) := by
  intro fuel
  induction fuel with
  | zero => intro n h0 h1; omega
  | succ fuel ih =>
    intro n h0 h1
    unfold log2Aux
    split
    · next h2 =>
      obtain ⟨ha, hb⟩ := ih (n / 2) (by omega) (by omega)
      rw [pow_succ] at hb ⊢
      rw [pow_succ]
      constructor <;> omega
    · next h2 =>
      have : n = 1 := by omega
      subst this
      simp

theorem natLog2_spec (n : Nat) (h : 0 < n) : 2 ^ natLog2 n ≤ n ∧ n < 2 ^ (natLog2 n + 1) :=
  log2Aux_spec n n h le_rfl

theorem two_zpow_pos (k : ℤ) : (0 : ℚ) < 2 ^ k := zpow_pos (by norm_num) k

theorem abs_eq_natAbs_div (q : ℚ) : |q| = (q.num.natAbs : ℚ) / (q.den : ℚ) := by
  have hd : (0 : ℚ) < (q.den : ℚ) := by exact_mod_cast q.den_pos
  conv_lhs => rw [← Rat.num_div_den q]
  rw [abs_div, abs_of_pos hd, Nat.cast_natAbs, Int.cast_abs]

/-- The exponent of the leading bit. -/
theorem ilog2_spec (q : ℚ) (hq : q ≠ 0) :
    (2 : ℚ) ^ ilog2 q ≤ |q| ∧ |q| < 2 ^ (ilog2 q + 1) := by
  have hN : 0 < q.num.natAbs := Int.natAbs_pos.mpr (Rat.num_ne_zero.mpr hq)
  have hD : 0 < q.den := q.den_pos
  obtain ⟨a1, a2⟩ := natLog2_spec _ hN
  obtain ⟨b1, b2⟩ := natLog2_spec _ hD
  have a1' : (2 : ℚ) ^ (natLog2 q.num.natAbs) ≤ (q.num.natAbs : ℚ) := by exact_mod_cast a1
  have a2' : (q.num.natAbs : ℚ) < 2 ^ (natLog2 q.num.natAbs + 1) := by exact_mod_cast a2
  have b1' : (2 : ℚ) ^ (natLog2 q.den) ≤ (q.den : ℚ) := by exact_mod_cast b1
  have b2' : (q.den : ℚ) < 2 ^ (natLog2 q.den + 1) := by exact_mod_cast b2
  have hd : (0 : ℚ) < (q.den : ℚ) := by exact_mod_cast hD
  have habs := abs_eq_natAbs_div q
  have e1 : (2 : ℚ) ^ ((natLog2 q.num.natAbs : ℤ) - (natLog2 q.den : ℤ) + 1)
      = 2 ^ (natLog2 q.num.natAbs + 1) / 2 ^ (natLog2 q.den) := by
    rw [show ((natLog2 q.num.natAbs : ℤ) - (natLog2 q.den : ℤ) + 1)
        = ((natLog2 q.num.natAbs + 1 : ℕ) : ℤ) - ((natLog2 q.den : ℕ) : ℤ) by push_cast; ring]
    rw [zpow_sub₀ (by norm_num), zpow_natCast, zpow_natCast]
  have e2 : (2 : ℚ) ^ ((natLog2 q.num.natAbs : ℤ) - (natLog2 q.den : ℤ) - 1)
      = 2 ^ (natLog2 q.num.natAbs) / 2 ^ (natLog2 q.den + 1) := by
    rw [show ((natLog2 q.num.natAbs : ℤ) - (natLog2 q.den : ℤ) - 1)
        = ((natLog2 q.num.natAbs : ℕ) : ℤ) - ((natLog2 q.den + 1 : ℕ) : ℤ) by push_cast; ring]
    rw [zpow_sub₀ (by norm_num), zpow_natCast, zpow_natCast]
  unfold ilog2
  split
  · next h =>
    refine ⟨h, ?_⟩
    rw [e1, habs, div_lt_div_iff₀ hd (by positivity)]
    calc (q.num.natAbs : ℚ) * 2 ^ natLog2 q.den
        ≤ (q.num.natAbs : ℚ) * q.den := by gcongr
      _ < 2 ^ (natLog2 q.num.natAbs + 1) * q.den := by gcongr
  · next h =>
    constructor
    · rw [e2, habs, div_le_div_iff₀ (by positivity) hd]
      calc (2 : ℚ) ^ natLog2 q.num.natAbs * q.den
          ≤ (q.num.natAbs : ℚ) * q.den := by gcongr
        _ ≤ (q.num.natAbs : ℚ) * 2 ^ (natLog2 q.den + 1) := by gcongr
    · rw [sub_add_cancel]
      exact not_le.mp h

theorem ilog2_lt_of_abs_lt (q : ℚ) (hq : q ≠ 0) (k : ℤ) (h : |q| < 2 ^ k) : ilog2 q < k := by
  have h1 := (ilog2_spec q hq).1
  exact (zpow_lt_zpow_iff_right₀ (by norm_num : (1 : ℚ) < 2)).mp (lt_of_le_of_lt h1 h)

theorem le_ilog2_of_le_abs (q : ℚ) (hq : q ≠ 0) (k : ℤ) (h : (2 : ℚ) ^ k ≤ |q|) : k ≤ ilog2 q := by
  have h2 := (ilog2_spec q hq).2
  have := (zpow_lt_zpow_iff_right₀ (by norm_num : (1 : ℚ) < 2)).mp (lt_of_le_of_lt h h2)
  omega

/-! ### Rounding to an integer -/

theorem roundHalfEven_intCast (n : ℤ) : roundHalfEven (n : ℚ) = n := by
  simp [roundHalfEven]

theorem roundHalfEven_bounds (r : ℚ) : ⌊r⌋ ≤ roundHalfEven r ∧ roundHalfEven r ≤ ⌊r⌋ + 1 := by
  unfold roundHalfEven
  split_ifs <;> constructor <;> omega

theorem roundHalfEven_mono (r s : ℚ) (h : r ≤ s) : roundHalfEven r ≤ roundHalfEven s := by
  have hf : ⌊r⌋ ≤ ⌊s⌋ := Int.floor_mono h
  rcases lt_or_eq_of_le hf with hlt | heq
  · have h1 := (roundHalfEven_bounds r).2
    have h2 := (roundHalfEven_bounds s).1
    omega
  · unfold roundHalfEven
    rw [← heq]
    have hd : r - ⌊r⌋ ≤ s - ⌊r⌋ := by linarith
    split_ifs <;> first | omega | (exfalso; linarith)

theorem roundHalfEven_neg (r : ℚ) : roundHalfEven (-r) = -roundHalfEven r := by
  by_cases hint : (⌊r⌋ : ℚ) = r
  · rw [← hint, ← Int.cast_neg, roundHalfEven_intCast, roundHalfEven_intCast]
  · have hlt : (⌊r⌋ : ℚ) < r := lt_of_le_of_ne (Int.floor_le r) hint
    have hfl : ⌊-r⌋ = -⌊r⌋ - 1 := by
      rw [Int.floor_eq_iff]
      push_cast
      constructor
      · have := Int.lt_floor_add_one r
        linarith
      · linarith
    unfold roundHalfEven
    rw [hfl]
    push_cast
    split_ifs <;> first | omega | (exfalso; linarith)

theorem roundHalfEven_error (r : ℚ) : |(roundHalfEven r : ℚ) - r| ≤ 1 / 2 := by
  have h1 := Int.floor_le r
  have h2 := Int.lt_floor_add_one r
  unfold roundHalfEven
  rw [abs_le]
  split_ifs <;> push_cast <;> constructor <;> linarith

theorem roundHalfEven_abs_le (r : ℚ) (M : ℤ) (h : |r| ≤ (M : ℚ)) :
    |(roundHalfEven r : ℚ)| ≤ (M : ℚ) := by
  rw [abs_le] at h ⊢
  have h1 := roundHalfEven_mono (-(M : ℚ)) r h.1
  have h2 := roundHalfEven_mono r (M : ℚ) h.2
  rw [← Int.cast_neg, roundHalfEven_intCast] at h1
  rw [roundHalfEven_intCast] at h2
  constructor
  · exact_mod_cast h1
  · exact_mod_cast h2

theorem roundHalfEven_nonneg (r : ℚ) (h : 0 ≤ r) : 0 ≤ roundHalfEven r := by
  have := roundHalfEven_mono 0 r h
  rwa [show (0 : ℚ) = ((0 : ℤ) : ℚ) by simp, roundHalfEven_intCast] at this

theorem roundHalfEven_nonpos (r : ℚ) (h : r ≤ 0) : roundHalfEven r ≤ 0 := by
  have := roundHalfEven_mono r 0 h
  rwa [show (0 : ℚ) = ((0 : ℤ) : ℚ) by simp, roundHalfEven_intCast] at this

/-! ### Rounding to a format -/

theorem abs_lt_of_representable (p : ℕ) (n k : ℤ) (x : ℚ) (hx : x = (n : ℚ) * 2 ^ k)
    (hn : |n| < 2 ^ p) : |x| < 2 ^ ((p : ℤ) + k) := by
  have h2 : (0 : ℚ) < 2 ^ k := two_zpow_pos k
  have hn' : |(n : ℚ)| < 2 ^ p := by exact_mod_cast hn
  rw [hx, abs_mul, abs_of_pos h2, zpow_add₀ (by norm_num), zpow_natCast]
  exact mul_lt_mul_of_pos_right hn' h2

/-- A representable number is a whole multiple of the unit in the last place of any number
that is not larger in magnitude. -/
theorem multiple_of_ulp (p : ℕ) (emin : ℤ) (n k : ℤ) (m t : ℚ) (hm : m = (n : ℚ) * 2 ^ k)
    (hn : |n| < 2 ^ p) (hk : emin - ((p : ℤ) - 1) ≤ k) (ht : t ≠ 0) (hle : |t| ≤ |m|) :
    ∃ M : ℤ, m = (M : ℚ) * ulp p emin t := by
  have hlt := abs_lt_of_representable p n k m hm hn
  have hi : ilog2 t < (p : ℤ) + k := ilog2_lt_of_abs_lt t ht _ (lt_of_le_of_lt hle hlt)
  have hj : 0 ≤ k - (max (ilog2 t) emin - ((p : ℤ) - 1)) := by
    have : max (ilog2 t) emin ≤ k + ((p : ℤ) - 1) := max_le (by omega) (by omega)
    omega
  obtain ⟨j, hj'⟩ := Int.eq_ofNat_of_zero_le hj
  refine ⟨n * 2 ^ j, ?_⟩
  have hk' : k = (max (ilog2 t) emin - ((p : ℤ) - 1)) + (j : ℤ) := by omega
  unfold ulp
  rw [hm]
  conv_lhs => rw [hk']
  rw [zpow_add₀ (by norm_num), zpow_natCast]
  push_cast
  ring

theorem ulp_pos (p : ℕ) (emin : ℤ) (t : ℚ) : 0 < ulp p emin t := two_zpow_pos _

theorem roundFormat_of_representable (p : ℕ) (emin emax : ℤ) (x : ℚ)
    (h : Representable p emin emax x) : roundFormat p emin emax x = .finite x := by
  obtain ⟨n, k, hx, hn, hk, hmax⟩ := h
  by_cases h0 : x = 0
  · simp [roundFormat, h0]
  · obtain ⟨M, hM⟩ := multiple_of_ulp p emin n k x x hx hn hk h0 le_rfl
    have hu := ulp_pos p emin x
    have hdiv : x / ulp p emin x = (M : ℚ) := by
      rw [div_eq_iff (ne_of_gt hu)]
      exact hM
    have hr : (roundHalfEven (x / ulp p emin x) : ℚ) * ulp p emin x = x := by
      rw [hdiv, roundHalfEven_intCast]
      exact hM.symm
    simp only [roundFormat, h0, if_false, hr, not_le.mpr hmax]

theorem roundFormat_abs_le (p : ℕ) (emin emax : ℤ) (m t : ℚ)
    (hm : Representable p emin emax m) (hle : |t| ≤ m) :
    ∃ r, roundFormat p emin emax t = .finite r ∧ |r| ≤ m ∧ (0 ≤ t → 0 ≤ r) ∧ (t ≤ 0 → r ≤ 0) := by
  obtain ⟨n, k, hx, hn, hk, hmax⟩ := hm
  have hm0 : 0 ≤ m := le_trans (abs_nonneg t) hle
  by_cases h0 : t = 0
  · exact ⟨0, by simp [roundFormat, h0], by simpa using hm0, fun _ => le_rfl, fun _ => le_rfl⟩
  · obtain ⟨M, hM⟩ := multiple_of_ulp p emin n k m t hx hn hk h0 (by rwa [abs_of_nonneg hm0])
    have hu := ulp_pos p emin t
    have hdiv : |t / ulp p emin t| ≤ (M : ℚ) := by
      rw [abs_div, abs_of_pos hu, div_le_iff₀ hu, ← hM]
      exact hle
    have hN := roundHalfEven_abs_le _ M hdiv
    have hr : |(roundHalfEven (t / ulp p emin t) : ℚ) * ulp p emin t| ≤ m := by
      rw [abs_mul, abs_of_pos hu, hM]
      exact mul_le_mul_of_nonneg_right hN (le_of_lt hu)
    have hmax' : |m| < 2 ^ (emax + 1) := hmax
    rw [abs_of_nonneg hm0] at hmax'
    refine ⟨(roundHalfEven (t / ulp p emin t) : ℚ) * ulp p emin t, ?_, hr, ?_, ?_⟩
    · simp only [roundFormat, h0, if_false, not_le.mpr (lt_of_le_of_lt hr hmax')]
    · intro ht
      have := roundHalfEven_nonneg (t / ulp p emin t) (div_nonneg ht (le_of_lt hu))
      exact mul_nonneg (by exact_mod_cast this) (le_of_lt hu)
    · intro ht
      have := roundHalfEven_nonpos (t / ulp p emin t) (div_nonpos_of_nonpos_of_nonneg ht (le_of_lt hu))
      exact mul_nonpos_of_nonpos_of_nonneg (by exact_mod_cast this) (le_of_lt hu)

theorem representable_zero (p : ℕ) (emin emax : ℤ) : Representable p emin emax 0 :=
  ⟨0, emin - ((p : ℤ) - 1), by simp, by simp, le_rfl, by simpa using two_zpow_pos (emax + 1)⟩

theorem representable_of_roundFormat (p : ℕ) (emin emax : ℤ) (q r : ℚ)
    (h : roundFormat (p + 1) emin emax q = .finite r) : Representable (p + 1) emin emax r := by
  by_cases h0 : q = 0
  · simp only [roundFormat, h0, if_true, FloatVal.finite.injEq] at h
    rw [← h]
    exact representable_zero _ _ _
  · simp only [roundFormat, h0, if_false] at h
    split at h
    · exact FloatVal.noConfusion h
    · next hov =>
      injection h with h
      have hu := ulp_pos (p + 1) emin q
      have hq := (ilog2_spec q h0).2
      have hlt : |q / ulp (p + 1) emin q| < ((2 ^ (p + 1) : ℤ) : ℚ) := by
        rw [abs_div, abs_of_pos hu, div_lt_iff₀ hu]
        refine lt_of_lt_of_le hq ?_
        unfold ulp
        push_cast
        rw [← zpow_natCast, ← zpow_add₀ (by norm_num)]
        apply zpow_le_zpow_right₀ (by norm_num)
        have := le_max_left (ilog2 q) emin
        push_cast
        omega
      have hN := roundHalfEven_abs_le _ _ (le_of_lt hlt)
      have hN' : |roundHalfEven (q / ulp (p + 1) emin q)| ≤ 2 ^ (p + 1) := by exact_mod_cast hN
      have hmax : |r| < 2 ^ (emax + 1) := by
        rw [← h]
        exact not_le.mp hov
      rcases lt_or_eq_of_le hN' with hlt' | heq
      · refine ⟨_, _, h.symm, hlt', ?_, hmax⟩
        have := le_max_right (ilog2 q) emin
        omega
      · refine ⟨roundHalfEven (q / ulp (p + 1) emin q) / 2,
          max (ilog2 q) emin - (((p + 1 : ℕ) : ℤ) - 1) + 1, ?_, ?_, ?_, hmax⟩
        · have hdvd : (2 : ℤ) ∣ roundHalfEven (q / ulp (p + 1) emin q) := by
            rw [← Int.dvd_natAbs, ← Int.abs_eq_natAbs, heq, pow_succ]
            exact dvd_mul_left 2 _
          obtain ⟨c, hc⟩ := hdvd
          rw [← h, hc, Int.mul_ediv_cancel_left _ (by norm_num), zpow_add₀ (by norm_num)]
          unfold ulp
          push_cast
          ring
        · have hne : |roundHalfEven (q / ulp (p + 1) emin q) / 2| * 2
              = |roundHalfEven (q / ulp (p + 1) emin q)| := by
            have hdvd : (2 : ℤ) ∣ roundHalfEven (q / ulp (p + 1) emin q) := by
              rw [← Int.dvd_natAbs, ← Int.abs_eq_natAbs, heq, pow_succ]
              exact dvd_mul_left 2 _
            obtain ⟨c, hc⟩ := hdvd
            rw [hc, Int.mul_ediv_cancel_left _ (by norm_num), abs_mul]
            simp [mul_comm]
          have hpos : (0 : ℤ) < 2 ^ (p + 1) := by positivity
          rw [heq] at hne
          omega
        · have := le_max_right (ilog2 q) emin
          omega

theorem ilog2_neg (q : ℚ) : ilog2 (-q) = ilog2 q := by
  simp [ilog2]

theorem roundFormat_neg (p : ℕ) (emin emax : ℤ) (q : ℚ) :
    roundFormat p emin emax (-q) = fneg (roundFormat p emin emax q) := by
  by_cases h0 : q = 0
  · simp [roundFormat, h0, fneg]
  · have hu : ulp p emin (-q) = ulp p emin q := by simp [ulp, ilog2_neg]
    have hr : (roundHalfEven (-q / ulp p emin q) : ℚ) * ulp p emin q
        = -((roundHalfEven (q / ulp p emin q) : ℚ) * ulp p emin q) := by
      rw [neg_div, roundHalfEven_neg]
      push_cast
      ring
    have hd : decide (-q < 0) = !decide (q < 0) := by
      rcases lt_or_gt_of_ne h0 with h | h
      · simp [h, le_of_lt h]
      · simp [h, le_of_lt h, not_lt.mpr (le_of_lt h)]
    simp only [roundFormat, neg_eq_zero, h0, if_false, hu, hr, abs_neg, hd]
    split <;> rfl

theorem roundFormat_error_le (p : ℕ) (emin emax : ℤ) (m t r : ℚ) (hle : |t| ≤ m)
    (hm : (2 : ℚ) ^ emin ≤ m) (h : roundFormat p emin emax t = .finite r) :
    |r - t| ≤ m / 2 ^ p := by
  have hmpos : 0 < m := lt_of_lt_of_le (two_zpow_pos emin) hm
  by_cases h0 : t = 0
  · simp only [roundFormat, h0, if_true, FloatVal.finite.injEq] at h
    rw [← h, h0]
    simp only [sub_zero, abs_zero]
    positivity
  · simp only [roundFormat, h0, if_false] at h
    split at h
    · exact FloatVal.noConfusion h
    · injection h with h
      have hu := ulp_pos p emin t
      have herr := roundHalfEven_error (t / ulp p emin t)
      have h1 : |r - t| ≤ ulp p emin t / 2 := by
        have : r - t = ((roundHalfEven (t / ulp p emin t) : ℚ) - t / ulp p emin t) * ulp p emin t := by
          rw [← h]
          field_simp
        rw [this, abs_mul, abs_of_pos hu]
        calc |(roundHalfEven (t / ulp p emin t) : ℚ) - t / ulp p emin t| * ulp p emin t
            ≤ 1 / 2 * ulp p emin t := mul_le_mul_of_nonneg_right herr (le_of_lt hu)
          _ = ulp p emin t / 2 := by ring
      have hm0 : m ≠ 0 := ne_of_gt hmpos
      have habs : |m| = m := abs_of_pos hmpos
      have he : max (ilog2 t) emin ≤ ilog2 m := by
        apply max_le
        · have := ilog2_lt_of_abs_lt t h0 (ilog2 m + 1)
            (lt_of_le_of_lt hle (by simpa [habs] using (ilog2_spec m hm0).2))
          omega
        · exact le_ilog2_of_le_abs m hm0 emin (by rwa [habs])
      have h2 : ulp p emin t / 2 ≤ m / 2 ^ p := by
        have hs := (ilog2_spec m hm0).1
        rw [habs] at hs
        have : ulp p emin t / 2 = 2 ^ (max (ilog2 t) emin - (p : ℤ)) := by
          unfold ulp
          rw [show max (ilog2 t) emin - ((p : ℤ) - 1) = (max (ilog2 t) emin - (p : ℤ)) + 1 by ring,
            zpow_add₀ (by norm_num)]
          norm_num
        rw [this, le_div_iff₀ (by positivity), ← zpow_natCast, ← zpow_add₀ (by norm_num)]
        refine le_trans (zpow_le_zpow_right₀ (by norm_num) ?_) hs
        omega
      exact le_trans h1 h2

/-! ### The `float` operations on the values `GetParsedPos` meets -/

theorem representable_neg (p : ℕ) (emin emax : ℤ) (x : ℚ) (h : Representable p emin emax x) :
    Representable p emin emax (-x) := by
  obtain ⟨n, k, hx, hn, hk, hmax⟩ := h
  exact ⟨-n, k, by rw [hx]; push_cast; ring, by rwa [abs_neg], hk, by rwa [abs_neg]⟩

theorem roundSingle_of_representable (x : ℚ) (h : Representable 24 (-126) 127 x) :
    roundSingle x = .finite x :=
  roundFormat_of_representable 24 (-126) 127 x h

theorem representable_of_roundSingle (q r : ℚ) (h : roundSingle q = .finite r) :
    Representable 24 (-126) 127 r :=
  representable_of_roundFormat 23 (-126) 127 q r h

/-- What `Atof` returns is a `float`: NaN, an infinity, or a representable number. -/
theorem Atof_float (Str : List Char) :
    Atof Str = .nan ∨ (∃ s, Atof Str = .inf s)
    ∨ ∃ c, Atof Str = .finite c ∧ Representable 24 (-126) 127 c := by
  unfold Atof
  cases h : strtod Str with
  | nan => exact Or.inl rfl
  | inf s => exact Or.inr (Or.inl ⟨s, rfl⟩)
  | finite q =>
    simp only [toSingle]
    cases h2 : roundSingle q with
    | nan =>
      exfalso
      unfold roundSingle roundFormat at h2
      split_ifs at h2
    | inf s => exact Or.inr (Or.inl ⟨s, rfl⟩)
    | finite c => exact Or.inr (Or.inr ⟨c, rfl, representable_of_roundSingle q c h2⟩)

/-- On the unit input range `GetRangePct` returns the `float` it is given. -/
theorem GetRangePct_unit_float (v : FloatVal)
    (hv : v = .nan ∨ (∃ s, v = .inf s) ∨ ∃ c, v = .finite c ∧ Representable 24 (-126) 127 c) :
    GetRangePct (.finite 0) (.finite 1) v = v := by
  have hd : fsub (.finite 1) (.finite 0) = .finite 1 := by decide!
  have hz : IsNearlyZero (.finite 1) = false := by decide!
  simp only [GetRangePct, hd, hz, Bool.false_eq_true, if_false]
  rcases hv with h | ⟨s, h⟩ | ⟨c, h, hc⟩
  · rw [h]; rfl
  · rw [h]
    cases s <;> norm_num [fsub, fneg, fadd, fdiv]
  · rw [h]
    have h1 : fsub (.finite c) (.finite 0) = .finite c := by
      simp only [fsub, fneg, fadd, neg_zero, add_zero]
      exact roundSingle_of_representable c hc
    rw [h1]
    simp only [fdiv, one_ne_zero, if_false, div_one]
    exact roundSingle_of_representable c hc

/-- The value `Clamp` leaves of a `float` on the unit range. -/
theorem Clamp_unit_float (v : FloatVal) :
    (∀ c, v = .finite c → 0 ≤ c → c ≤ 1 → Clamp v (.finite 0) (.finite 1) = .finite c)
    ∧ (∀ c, v = .finite c → c < 0 → Clamp v (.finite 0) (.finite 1) = .finite 0)
    ∧ (v = .inf true → Clamp v (.finite 0) (.finite 1) = .finite 0)
    ∧ (∀ c, v = .finite c → 1 < c → Clamp v (.finite 0) (.finite 1) = .finite 1)
    ∧ (v = .inf false → Clamp v (.finite 0) (.finite 1) = .finite 1)
    ∧ (v = .nan → Clamp v (.finite 0) (.finite 1) = .finite 1)
    ∧ ∃ c, Clamp v (.finite 0) (.finite 1) = .finite c ∧ 0 ≤ c ∧ c ≤ 1 := by
  refine ⟨?_, ?_, ?_, ?_, ?_, ?_, ?_⟩
  · intro c h h0 h1
    rw [h]
    simp only [Clamp, flt, decide_eq_true_eq, not_lt.mpr h0, if_false]
    rcases lt_or_eq_of_le h1 with h2 | h2
    · simp [h2]
    · simp [h2]
  · intro c h h0
    rw [h]
    simp [Clamp, flt, h0]
  · intro h
    rw [h]
    simp [Clamp, flt]
  · intro c h h1
    rw [h]
    have h0 : ¬ c < 0 := by linarith
    have h2 : ¬ c < 1 := by linarith
    simp [Clamp, flt, h0, h2]
  · intro h
    rw [h]
    simp [Clamp, flt]
  · intro h
    rw [h]
    simp [Clamp, flt]
  · cases v with
    | nan => exact ⟨1, by simp [Clamp, flt], by norm_num, le_rfl⟩
    | inf s =>
      cases s
      · exact ⟨1, by simp [Clamp, flt], by norm_num, le_rfl⟩
      · exact ⟨0, by simp [Clamp, flt], le_rfl, by norm_num⟩
    | finite c =>
      by_cases h0 : c < 0
      · exact ⟨0, by simp [Clamp, flt, h0], le_rfl, by norm_num⟩
      · by_cases h1 : c < 1
        · exact ⟨c, by simp [Clamp, flt, h0, h1], not_lt.mp h0, le_of_lt h1⟩
        · exact ⟨1, by simp [Clamp, flt, h0, h1], by norm_num, le_rfl⟩

/-- The half extent the code computes from a size that is a non-negative `float`. -/
theorem half_extent (w : ℚ) (hw : 0 ≤ w) (hf : roundSingle w = .finite w) :
    ∃ b : ℚ, fmul (.finite w) (.finite (1 / 2)) = .finite b
      ∧ fmul (fneg (.finite w)) (.finite (1 / 2)) = .finite (-b)
      ∧ 0 ≤ b ∧ b ≤ w
      ∧ Representable 24 (-126) 127 b
      ∧ Representable 24 (-126) 127 (2 * b)
      ∧ (1 / 2 ^ 125 ≤ w → b = w / 2) := by
  have hrep := representable_of_roundSingle w w hf
  obtain ⟨b, hb, hble, hb0, _⟩ := roundFormat_abs_le 24 (-126) 127 w (w * (1 / 2)) hrep
    (by rw [abs_of_nonneg (by linarith)]; linarith)
  have hb0' := hb0 (by linarith)
  have hb' : roundSingle (w * (1 / 2)) = .finite b := hb
  have hbrep := representable_of_roundSingle _ b hb'
  have hneg : roundSingle (-w * (1 / 2)) = .finite (-b) := by
    have := roundFormat_neg 24 (-126) 127 (w * (1 / 2))
    rw [show -(w * (1 / 2)) = -w * (1 / 2) by ring, hb] at this
    exact this
  obtain ⟨n, k, hx, hn, hk, hmax⟩ := hrep
  have hcase : (-148 ≤ k → b = w / 2) := by
    intro hk'
    have hhalf : Representable 24 (-126) 127 (w * (1 / 2)) := by
      refine ⟨n, k - 1, ?_, hn, by omega, ?_⟩
      · rw [hx, zpow_sub₀ (by norm_num)]
        norm_num
        ring
      · rw [abs_of_nonneg (by linarith)]
        rw [abs_of_nonneg hw] at hmax
        exact lt_of_le_of_lt (by linarith) hmax
    have := roundSingle_of_representable _ hhalf
    rw [this] at hb'
    injection hb' with hb
    rw [← hb]
    ring
  have hsmall : (¬ -148 ≤ k → w < 1 / 2 ^ 125) := by
    intro hk'
    have hk149 : k = -149 := by omega
    have := abs_lt_of_representable 24 n k w hx hn
    rw [abs_of_nonneg hw, hk149] at this
    calc w < 2 ^ (((24 : ℕ) : ℤ) + -149) := this
      _ = 1 / 2 ^ 125 := by
        rw [show (((24 : ℕ) : ℤ) + -149) = -125 by norm_num, zpow_neg, one_div]
        norm_num
  refine ⟨b, hb', hneg, hb0', ?_, hbrep, ?_, ?_⟩
  · rw [abs_of_nonneg hb0'] at hble
    exact hble
  · by_cases hk' : -148 ≤ k
    · rw [hcase hk']
      rw [show 2 * (w / 2) = w by ring]
      exact ⟨n, k, hx, hn, hk, hmax⟩
    · obtain ⟨n', k', hx', hn', hk2, hmax'⟩ := hbrep
      refine ⟨n', k' + 1, ?_, hn', by omega, ?_⟩
      · rw [hx', zpow_add₀ (by norm_num)]
        ring
      · have hws := hsmall hk'
        rw [abs_of_nonneg hb0'] at hble
        rw [abs_of_nonneg (by linarith)]
        have h1 : (1 : ℚ) / 2 ^ 125 ≤ 1 := by
          rw [div_le_one (by positivity)]
          exact one_le_pow₀ (by norm_num)
        have h2 : (1 : ℚ) ≤ 2 ^ ((127 : ℤ) + 1) := by
          exact one_le_zpow₀ (by norm_num) (by norm_num)
        linarith
  · intro hge
    by_cases hk' : -148 ≤ k
    · exact hcase hk'
    · exact absurd (hsmall hk') (not_lt.mpr hge)

theorem Lerp_extent (b c : ℚ) (hb0 : 0 ≤ b) (hb : Representable 24 (-126) 127 b)
    (h2b : Representable 24 (-126) 127 (2 * b)) (hc0 : 0 ≤ c) (hc1 : c ≤ 1) :
    Lerp (.finite (-b)) (.finite b) (.finite c)
      = fadd (.finite (-b)) (fmul (.finite c) (.finite (2 * b)))
    ∧ ∃ p s, roundSingle (c * (2 * b)) = .finite p ∧ 0 ≤ p ∧ p ≤ 2 * b
        ∧ roundSingle (-b + p) = .finite s ∧ -b ≤ s ∧ s ≤ b
        ∧ Lerp (.finite (-b)) (.finite b) (.finite c) = .finite s := by
  have hd : fsub (.finite b) (.finite (-b)) = .finite (2 * b) := by
    simp only [fsub, fneg, fadd, neg_neg]
    rw [← two_mul]
    exact roundSingle_of_representable _ h2b
  have hL : Lerp (.finite (-b)) (.finite b) (.finite c)
      = fadd (.finite (-b)) (fmul (.finite c) (.finite (2 * b))) := by
    simp only [Lerp, hd]
  obtain ⟨p, hp, hple, hp0, _⟩ := roundFormat_abs_le 24 (-126) 127 (2 * b) (c * (2 * b)) h2b
    (by
      rw [abs_of_nonneg (by positivity)]
      nlinarith)
  have hp0' := hp0 (by positivity)
  rw [abs_of_nonneg hp0'] at hple
  obtain ⟨s, hs, hsle, _, _⟩ := roundFormat_abs_le 24 (-126) 127 b (-b + p) hb
    (by
      rw [abs_le]
      constructor <;> linarith)
  rw [abs_le] at hsle
  have hp' : roundSingle (c * (2 * b)) = .finite p := hp
  have hs' : roundSingle (-b + p) = .finite s := hs
  refine ⟨hL, p, s, hp', hp0', hple, hs', hsle.1, hsle.2, ?_⟩
  rw [hL]
  simp only [fmul, fadd, hp', hs']

/-- One coordinate for a size that is a non-negative `float`. -/
theorem coordinate_of_size (w : ℚ) (hw : 0 ≤ w) (hf : roundSingle w = .finite w) :
    ∃ b : ℚ, fmul (.finite w) (.finite (1 / 2)) = .finite b
      ∧ fmul (fneg (.finite w)) (.finite (1 / 2)) = .finite (-b)
      ∧ 0 ≤ b
      ∧ (1 / 2 ^ 125 ≤ w → b = w / 2)
      ∧ (∀ Str, ∃ s, coordinate (.finite w) Str = .finite s ∧ -b ≤ s ∧ s ≤ b)
      ∧ (∀ Str c, Atof Str = .finite c → 0 ≤ c → c ≤ 1 →
          coordinate (.finite w) Str = fadd (.finite (-b)) (fmul (.finite c) (.finite (2 * b)))
          ∧ (1 / 2 ^ 125 ≤ w → ∀ s, coordinate (.finite w) Str = .finite s →
              |s - (-w / 2 + c * w)| ≤ w / 2 ^ 23)
          ∧ (roundSingle (c * w) = .finite (c * w) →
              roundSingle (-w / 2 + c * w) = .finite (-w / 2 + c * w) → b = w / 2 →
              coordinate (.finite w) Str = .finite (-w / 2 + c * w)))
      ∧ (∀ Str, ((∃ c, Atof Str = .finite c ∧ c ≤ 0) ∨ Atof Str = .inf true) →
          coordinate (.finite w) Str = .finite (-b))
      ∧ (∀ Str, ((∃ c, Atof Str = .finite c ∧ 1 ≤ c) ∨ Atof Str = .inf false
            ∨ Atof Str = .nan) →
          coordinate (.finite w) Str = .finite b) := by
  obtain ⟨b, hB, hA, hb0, hbw, hbrep, h2b, hhalf⟩ := half_extent w hw hf
  have hcoord : ∀ Str, coordinate (.finite w) Str
      = Lerp (.finite (-b)) (.finite b) (Clamp (Atof Str) (.finite 0) (.finite 1)) := by
    intro Str
    simp only [coordinate, MapRangeClamped, GetRangePct_unit_float _ (Atof_float Str), hA, hB]
  have hlo : Lerp (.finite (-b)) (.finite b) (.finite 0) = .finite (-b) := by
    obtain ⟨hL, _⟩ := Lerp_extent b 0 hb0 hbrep h2b le_rfl (by norm_num)
    rw [hL]
    have h0 : roundSingle 0 = .finite 0 := by decide!
    simp only [fmul, fadd, zero_mul, h0, add_zero]
    exact roundSingle_of_representable _ (representable_neg _ _ _ _ hbrep)
  have hhi : Lerp (.finite (-b)) (.finite b) (.finite 1) = .finite b := by
    obtain ⟨hL, _⟩ := Lerp_extent b 1 hb0 hbrep h2b (by norm_num) le_rfl
    rw [hL]
    simp only [fmul, fadd, one_mul, roundSingle_of_representable _ h2b]
    rw [show -b + 2 * b = b by ring]
    exact roundSingle_of_representable _ hbrep
  refine ⟨b, hB, hA, hb0, hhalf, ?_, ?_, ?_, ?_⟩
  · intro Str
    obtain ⟨c, hc, hc0, hc1⟩ := (Clamp_unit_float (Atof Str)).2.2.2.2.2.2
    obtain ⟨_, p, s, _, _, _, _, hs1, hs2, hs⟩ := Lerp_extent b c hb0 hbrep h2b hc0 hc1
    exact ⟨s, by rw [hcoord, hc, hs], hs1, hs2⟩
  · intro Str c hc hc0 hc1
    have hcl := (Clamp_unit_float (Atof Str)).1 c hc hc0 hc1
    obtain ⟨hL, p, s, hp, hp0, hp2, hs, hs1, hs2, hLs⟩ := Lerp_extent b c hb0 hbrep h2b hc0 hc1
    refine ⟨by rw [hcoord, hcl, hL], ?_, ?_⟩
    · intro hge s' hs'
      have hbe := hhalf hge
      rw [hcoord, hcl, hLs] at hs'
      injection hs' with hs'
      rw [← hs']
      have hwpos : (2 : ℚ) ^ (-126 : ℤ) ≤ w := by
        refine le_trans ?_ hge
        rw [zpow_neg, one_div]
        apply inv_anti₀ (by positivity)
        norm_num
      have e1 := roundFormat_error_le 24 (-126) 127 w (c * (2 * b)) p
        (by
          rw [abs_of_nonneg (by positivity), hbe]
          nlinarith) hwpos hp
      have e2 := roundFormat_error_le 24 (-126) 127 w (-b + p) s
        (by
          rw [abs_le]
          constructor <;> linarith) hwpos hs
      have hsplit : s - (-w / 2 + c * w) = (s - (-b + p)) + (p - c * (2 * b)) := by
        rw [hbe]
        ring
      rw [hsplit]
      calc |(s - (-b + p)) + (p - c * (2 * b))|
          ≤ |s - (-b + p)| + |p - c * (2 * b)| := abs_add _ _
        _ ≤ w / 2 ^ 24 + w / 2 ^ 24 := add_le_add e2 e1
        _ = w / 2 ^ 23 := by ring
    · intro h1 h2 hbe
      rw [hcoord, hcl, hL]
      simp only [fmul, fadd]
      rw [hbe, show c * (2 * (w / 2)) = c * w by ring, h1]
      simp only
      rw [show -(w / 2) + c * w = -w / 2 + c * w by ring, h2]
  · intro Str h
    rcases h with ⟨c, hc, hc0⟩ | h
    · rcases lt_or_eq_of_le hc0 with hlt | heq
      · rw [hcoord, (Clamp_unit_float (Atof Str)).2.1 c hc hlt, hlo]
      · rw [hcoord, (Clamp_unit_float (Atof Str)).1 c hc (by rw [heq]) (by rw [heq]; norm_num),
          heq, hlo]
    · rw [hcoord, (Clamp_unit_float (Atof Str)).2.2.1 h, hlo]
  · intro Str h
    rcases h with ⟨c, hc, hc1⟩ | h | h
    · rcases lt_or_eq_of_le hc1 with hlt | heq
      · rw [hcoord, (Clamp_unit_float (Atof Str)).2.2.2.1 c hc hlt, hhi]
      · rw [hcoord, (Clamp_unit_float (Atof Str)).1 c hc (by rw [← heq]; norm_num)
          (by rw [← heq]), ← heq, hhi]
    · rw [hcoord, (Clamp_unit_float (Atof Str)).2.2.2.2.1 h, hhi]
    · rw [hcoord, (Clamp_unit_float (Atof Str)).2.2.2.2.2.1 h, hhi]

theorem GetParsedPos_parts (LandscapeSize : FVector2D) (PosStr : String) :
    ∃ XStr YStr,
      GetParsedPos LandscapeSize PosStr
        = ⟨coordinate LandscapeSize.X XStr, coordinate LandscapeSize.Y YStr, .finite 0⟩
      ∧ (∀ L R, Split PosStr.data = some (L, R) → XStr = L ∧ YStr = R)
      ∧ (Split PosStr.data = none → XStr = [] ∧ YStr = []) := by
  cases hs : Split PosStr.data with
  | none => exact ⟨[], [], by simp only [GetParsedPos, hs, coordinate], by simp, by simp⟩
  | some LR =>
    obtain ⟨L, R⟩ := LR
    refine ⟨L, R, by simp only [GetParsedPos, hs, coordinate], ?_, by simp⟩
    intro L' R' h
    injection h with h
    injection h with h1 h2
    exact ⟨h1, h2⟩

/-- Rounding at work: a tie goes to the even neighbour (`1 + 2^-24` down to `1`,
`1 + 3 * 2^-24` up to `1 + 2^-22`); the smallest subnormal is `2^-149`; half of the last
place above the largest `float` overflows; `double` keeps 53 bits; and rounding to `double`
first can change the `float` (`1 + 2^-24 + 2^-60` rounds to `1 + 2^-23` directly and to
`1` through `double`). -/
theorem rounding_examples :
    roundSingle (1 + 1 / 2 ^ 24) = .finite 1
    ∧ roundSingle (1 + 3 / 2 ^ 24) = .finite (1 + 1 / 2 ^ 22)
    ∧ roundSingle (3 / 2 ^ 150) = .finite (2 / 2 ^ 149)
    ∧ roundSingle (1 / 2 ^ 150) = .finite 0
    ∧ roundSingle (2 ^ 128 - 2 ^ 103) = .inf false
    ∧ roundSingle (2 ^ 128 - 2 ^ 103 - 1) = .finite (2 ^ 128 - 2 ^ 104)
    ∧ roundDouble (1 / 10) = .finite (3602879701896397 / 36028797018963968)
    ∧ roundSingle (1 + 1 / 2 ^ 24 + 1 / 2 ^ 60) = .finite (1 + 1 / 2 ^ 23)
    ∧ toSingle (roundDouble (1 + 1 / 2 ^ 24 + 1 / 2 ^ 60)) = .finite 1
    ∧ fmul (.finite (11072963 / 33554432)) (.finite 40000) = .finite (13200 + 1 / 1024)
    ∧ fadd (.finite (-20000)) (.finite (13200 + 1 / 1024)) = .finite (-6963199 / 1024) := by
  refine ⟨by decide!, by decide!, by decide!, by decide!, by decide!, by decide!, by decide!,
    by decide!, by decide!, by decide!, by decide!⟩

/-- The spellings `strtod` reads besides decimal numerals: infinities, NaN, hexadecimal
literals, and decimal text beyond the range of `float`. -/
theorem Atof_spellings :
    Atof "inf".data = .inf false
    ∧ Atof " -Infinity".data = .inf true
    ∧ Atof "NaN".data = .nan
    ∧ Atof "0x1p-1".data = .finite (1 / 2)
    ∧ Atof "0X1.8P+1".data = .finite 3
    ∧ Atof "1e39".data = .inf false
    ∧ Atof "1e-400".data = .finite 0
    ∧ Atof "abc".data = .finite 0 := by
  refine ⟨by decide!, by decide!, by decide!, by decide!, by decide!, by decide!, by decide!,
    by decide!⟩

end Float32

/-! ## Theorems: task pipeline -/

theorem enqueued_append (a b : List Event) : enqueued (a ++ b) = enqueued a ++ enqueued b := by
  induction a with
  | nil => rfl
  | cons e es ih => cases e <;> simp [enqueued, ih]

theorem dequeued_append (a b : List Event) : dequeued (a ++ b) = dequeued a ++ dequeued b := by
  induction a with
  | nil => rfl
  | cons e es ih => cases e <;> simp [dequeued, ih]

theorem processing_append (a b : List Event) :
    processing (a ++ b) = processing a ++ processing b := by
  induction a with
  | nil => rfl
  | cons e es ih => cases e <;> simp [processing, ih]

theorem mem_dequeued_iff (n : String) (t : List Event) :
    n ∈ dequeued t ↔ Event.Dequeue n ∈ t := by
  induction t with
  | nil => simp [dequeued]
  | cons e es ih => cases e <;> simp [dequeued, ih]

theorem FStringEquals_refl (A : String) : FStringEquals A A = true := by
  simp [FStringEquals]

theorem Contains_of_mem (Array : List String) (Item : String) (h : Item ∈ Array) :
    Contains Array Item = true := by
  simp only [Contains, List.any_eq_true]
  exact ⟨Item, h, FStringEquals_refl Item⟩

theorem PollStep_new (s : GameMode) (n : String) (h : Contains s.LastTasks n = false) :
    PollStep s n =
      { s with
        LastTasks := s.LastTasks ++ [n]
        TaskQueue := s.TaskQueue ++ [n]
        Trace := s.Trace ++ [Event.Enqueue n] } := by
  simp [PollStep, h]

theorem PollStep_seen (s : GameMode) (n : String) (h : Contains s.LastTasks n = true) :
    PollStep s n = s := by
  simp [PollStep, h]

theorem PollStep_inv (Startup : List String) (s : GameMode) (n : String)
    (h : PipelineInv Startup s) : PipelineInv Startup (PollStep s n) := by
  cases hc : Contains s.LastTasks n with
  | true => rw [PollStep_seen s n hc]; exact h
  | false =>
    rw [PollStep_new s n hc]
    have hnot : n ∉ s.LastTasks := fun hm => by
      have := Contains_of_mem _ _ hm
      rw [hc] at this
      exact Bool.noConfusion this
    refine ⟨?_, ?_, ?_, ?_, ?_, ?_, ?_⟩
    · intro m hm
      simp [h.startup_seen m hm]
    · intro m hm
      simp only [enqueued_append, enqueued, List.mem_append, List.mem_singleton] at hm ⊢
      rcases hm with hm | hm
      · exact Or.inl (h.enqueued_seen m hm)
      · exact Or.inr hm
    · intro m hm
      simp only [enqueued_append, enqueued, List.mem_append, List.mem_singleton] at hm
      rcases hm with hm | hm
      · exact h.enqueued_new m hm
      · rw [hm]
        exact fun hs => hnot (h.startup_seen n hs)
    · simp only [enqueued_append, enqueued]
      rw [List.nodup_append]
      refine ⟨h.enqueued_nodup, List.nodup_singleton n, ?_⟩
      intro a ha hb
      rw [List.mem_singleton] at hb
      rw [hb] at ha
      exact hnot (h.enqueued_seen n ha)
    · simp only [enqueued_append, dequeued_append, enqueued, dequeued, h.fifo,
        List.append_nil, List.append_assoc]
    · obtain ⟨Done, h1, h2⟩ := h.cycles
      refine ⟨Done, ?_, ?_⟩
      · simp only [processing_append, processing, List.append_nil, h1]
      · simp only [dequeued_append, dequeued, List.append_nil, h2]
    · rcases h.task_origin with ht | ht
      · exact Or.inl ht
      · refine Or.inr ?_
        simp only [dequeued_append, dequeued, List.append_nil]
        exact ht

theorem foldl_PollStep_inv (Startup : List String) (names : List String) :
    ∀ s : GameMode, PipelineInv Startup s → PipelineInv Startup (names.foldl PollStep s) := by
  induction names with
  | nil => intro s h; exact h
  | cons n ns ih => intro s h; exact ih _ (PollStep_inv Startup s n h)

theorem Poll_inv (Startup : List String) (fs : FileSystem) (s : GameMode)
    (h : PipelineInv Startup s) : PipelineInv Startup (Poll fs s) :=
  foldl_PollStep_inv Startup _ s h

/-- A call of `LoadBrush` that returns has replaced `Actors` and recorded itself; no other
member has changed. -/
theorem LoadBrush_ok (eng : Engine) (fuel : Nat) (s s1 : GameMode)
    (h : LoadBrush eng fuel s = .ok s1) :
    ∃ st : BrushState,
      s1 = { s with Actors := st.Actors, Trace := s.Trace ++ [Event.LoadBrush s.Task] } := by
  unfold LoadBrush at h
  simp only at h
  split at h
  · exact Except.noConfusion h
  · next st _ =>
    injection h with h
    exact ⟨st, h.symm⟩

theorem Tick_finish_empty (eng : Engine) (fuel : Nat) (s : GameMode)
    (hs : s.TaskState = ETaskState.TS_Finish) (hq : s.TaskQueue = []) :
    Tick eng fuel s = .ok s := by
  simp [Tick, hs, hq]

theorem Tick_finish_dequeue (eng : Engine) (fuel : Nat) (s : GameMode) (Head : String)
    (Rest : List String)
    (hs : s.TaskState = ETaskState.TS_Finish) (hq : s.TaskQueue = Head :: Rest) :
    Tick eng fuel s =
      .ok { s with
            TaskQueue := Rest
            Task := Head
            TaskState := ETaskState.TS_Brush
            Trace := s.Trace ++ [Event.Dequeue Head] } := by
  simp [Tick, hs, hq]

theorem Tick_brush_ok (eng : Engine) (fuel : Nat) (s s1 : GameMode)
    (hs : s.TaskState = ETaskState.TS_Brush) (hl : LoadBrush eng fuel s = .ok s1) :
    Tick eng fuel s = .ok { s1 with TaskState := ETaskState.TS_Snapshot } := by
  simp [Tick, hs, hl]

theorem Tick_brush_error (eng : Engine) (fuel : Nat) (s : GameMode) (e : Fault)
    (hs : s.TaskState = ETaskState.TS_Brush) (hl : LoadBrush eng fuel s = .error e) :
    Tick eng fuel s = .error e := by
  simp [Tick, hs, hl]

theorem Tick_snapshot (eng : Engine) (fuel : Nat) (s : GameMode)
    (hs : s.TaskState = ETaskState.TS_Snapshot) :
    Tick eng fuel s =
      .ok { s with
            TaskState := ETaskState.TS_Finish
            Trace := s.Trace ++ [Event.GenSnapshots s.Task 6] } := by
  simp [Tick, hs, GenSnapshots]

theorem Tick_inv (Startup : List String) (eng : Engine) (fuel : Nat) (s s1 : GameMode)
    (h : PipelineInv Startup s) (ht : Tick eng fuel s = .ok s1) : PipelineInv Startup s1 := by
  obtain ⟨Done, hp, hd⟩ := h.cycles
  cases hs : s.TaskState with
  | TS_Finish =>
    rw [hs] at hp hd
    simp only [pending, current, List.append_nil] at hp hd
    cases hq : s.TaskQueue with
    | nil =>
      rw [Tick_finish_empty eng fuel s hs hq] at ht
      injection ht with ht
      rw [← ht]
      exact h
    | cons Head Rest =>
      rw [Tick_finish_dequeue eng fuel s Head Rest hs hq] at ht
      injection ht with ht
      rw [← ht]
      have hfifo := h.fifo
      rw [hq] at hfifo
      refine ⟨h.startup_seen, ?_, ?_, ?_, ?_, ?_, ?_⟩
      · intro m hm
        simp only [enqueued_append, enqueued, List.append_nil] at hm
        exact h.enqueued_seen m hm
      · intro m hm
        simp only [enqueued_append, enqueued, List.append_nil] at hm
        exact h.enqueued_new m hm
      · simp only [enqueued_append, enqueued, List.append_nil]
        exact h.enqueued_nodup
      · simp only [enqueued_append, dequeued_append, enqueued, dequeued, List.append_nil,
          hfifo, List.append_assoc, List.singleton_append]
      · refine ⟨Done, ?_, ?_⟩
        · simp only [processing_append, processing, pending, hp]
        · simp only [dequeued_append, dequeued, current, hd]
      · refine Or.inr ?_
        simp [dequeued_append, dequeued]
  | TS_Brush =>
    rw [hs] at hp hd
    cases hl : LoadBrush eng fuel s with
    | error e =>
      rw [Tick_brush_error eng fuel s e hs hl] at ht
      exact Except.noConfusion ht
    | ok s2 =>
      rw [Tick_brush_ok eng fuel s s2 hs hl] at ht
      injection ht with ht
      obtain ⟨st, hst⟩ := LoadBrush_ok eng fuel s s2 hl
      rw [← ht, hst]
      refine ⟨h.startup_seen, ?_, ?_, ?_, ?_, ?_, ?_⟩
      · intro m hm
        simp only [enqueued_append, enqueued, List.append_nil] at hm
        exact h.enqueued_seen m hm
      · intro m hm
        simp only [enqueued_append, enqueued, List.append_nil] at hm
        exact h.enqueued_new m hm
      · simp only [enqueued_append, enqueued, List.append_nil]
        exact h.enqueued_nodup
      · simp only [enqueued_append, dequeued_append, enqueued, dequeued, List.append_nil]
        exact h.fifo
      · refine ⟨Done, ?_, ?_⟩
        · simp only [processing_append, processing, pending, hp, List.append_assoc,
            List.singleton_append]
        · simp only [dequeued_append, dequeued, current, hd, List.append_nil]
      · rcases h.task_origin with ho | ho
        · exact Or.inl ho
        · refine Or.inr ?_
          simp only [dequeued_append, dequeued, List.append_nil]
          exact ho
  | TS_Snapshot =>
    rw [hs] at hp hd
    rw [Tick_snapshot eng fuel s hs] at ht
    injection ht with ht
    rw [← ht]
    refine ⟨h.startup_seen, ?_, ?_, ?_, ?_, ?_, ?_⟩
    · intro m hm
      simp only [enqueued_append, enqueued, List.append_nil] at hm
      exact h.enqueued_seen m hm
    · intro m hm
      simp only [enqueued_append, enqueued, List.append_nil] at hm
      exact h.enqueued_new m hm
    · simp only [enqueued_append, enqueued, List.append_nil]
      exact h.enqueued_nodup
    · simp only [enqueued_append, dequeued_append, enqueued, dequeued, List.append_nil]
      exact h.fifo
    · refine ⟨Done ++ [s.Task], ?_, ?_⟩
      · simp only [processing_append, processing, pending, hp, List.append_assoc,
          List.singleton_append, List.flatMap_append, List.flatMap_cons, List.flatMap_nil,
          cycle, List.append_nil, List.cons_append, List.nil_append]
      · simp only [dequeued_append, dequeued, current, hd, List.append_nil]
    · rcases h.task_origin with ho | ho
      · exact Or.inl ho
      · refine Or.inr ?_
        simp only [dequeued_append, dequeued, List.append_nil]
        exact ho

theorem step_inv (Startup : List String) (c : Call) (s s1 : GameMode)
    (h : PipelineInv Startup s) (hc : step s c = .ok s1) : PipelineInv Startup s1 := by
  cases c with
  | Poll fs =>
    simp only [step] at hc
    injection hc with hc
    rw [← hc]
    exact Poll_inv Startup fs s h
  | Tick eng fuel => exact Tick_inv Startup eng fuel s s1 h hc

theorem run_inv (Startup : List String) (calls : List Call) :
    ∀ s s1 : GameMode, PipelineInv Startup s → run s calls = .ok s1 →
      PipelineInv Startup s1 := by
  induction calls with
  | nil =>
    intro s s1 h hr
    simp only [run] at hr
    injection hr with hr
    rw [← hr]
    exact h
  | cons c cs ih =>
    intro s s1 h hr
    simp only [run] at hr
    cases hc : step s c with
    | error e =>
      rw [hc] at hr
      exact Except.noConfusion hr
    | ok s2 =>
      rw [hc] at hr
      exact ih s2 s1 (step_inv Startup c s s2 h hc) hr

theorem foldl_Add (names : List String) :
    ∀ s : GameMode,
      names.foldl
        (fun (g : GameMode) DirectoryName =>
          { g with LastTasks := g.LastTasks ++ [DirectoryName] }) s
        = { s with LastTasks := s.LastTasks ++ names } := by
  induction names with
  | nil => intro s; simp
  | cons n ns ih => intro s; simp [List.foldl, ih]

/-- The state `BeginPlay` leaves when called on the constructed object: the names found
are in `LastTasks`, nothing is queued. -/
theorem BeginPlay_construct (fs : FileSystem) (ProjectContentDir : String)
    (Tables : DataTables) :
    (BeginPlay fs (GameMode.construct ProjectContentDir Tables)).LastTasks
        = FindNonEmptyDirectoryNames (ProjectContentDir ++ "Data") fs
    ∧ (BeginPlay fs (GameMode.construct ProjectContentDir Tables)).TaskQueue = []
    ∧ (BeginPlay fs (GameMode.construct ProjectContentDir Tables)).Task = ""
    ∧ (BeginPlay fs (GameMode.construct ProjectContentDir Tables)).TaskState
        = ETaskState.TS_Finish
    ∧ (BeginPlay fs (GameMode.construct ProjectContentDir Tables)).Trace = [] := by
  simp [BeginPlay, foldl_Add, GameMode.construct]

theorem BeginPlay_inv (fs : FileSystem) (ProjectContentDir : String) (Tables : DataTables) :
    PipelineInv (FindNonEmptyDirectoryNames (ProjectContentDir ++ "Data") fs)
      (BeginPlay fs (GameMode.construct ProjectContentDir Tables)) := by
  obtain ⟨h1, h2, h3, h4, h5⟩ := BeginPlay_construct fs ProjectContentDir Tables
  refine ⟨?_, ?_, ?_, ?_, ?_, ?_, ?_⟩
  · intro n hn
    rw [h1]
    exact hn
  · intro n hn
    rw [h5] at hn
    simp [enqueued] at hn
  · intro n hn
    rw [h5] at hn
    simp [enqueued] at hn
  · rw [h5]
    simp [enqueued]
  · rw [h5, h2]
    simp [enqueued, dequeued]
  · refine ⟨[], ?_, ?_⟩
    · rw [h5, h4]
      simp [processing, pending]
    · rw [h5, h4]
      simp [dequeued, current]
  · exact Or.inl h3

/-- Every state reached from `BeginPlay` satisfies the pipeline invariant. -/
theorem reachable_inv (fs : FileSystem) (ProjectContentDir : String) (Tables : DataTables)
    (calls : List Call) (s : GameMode)
    (h : run (BeginPlay fs (GameMode.construct ProjectContentDir Tables)) calls = .ok s) :
    PipelineInv (FindNonEmptyDirectoryNames (ProjectContentDir ++ "Data") fs) s :=
  run_inv _ calls _ s (BeginPlay_inv fs ProjectContentDir Tables) h

theorem foldl_PollStep_fields (names : List String) :
    ∀ s : GameMode,
      (names.foldl PollStep s).Task = s.Task
      ∧ (names.foldl PollStep s).TaskState = s.TaskState
      ∧ s.LastTasks <+: (names.foldl PollStep s).LastTasks := by
  induction names with
  | nil => intro s; simp
  | cons n ns ih =>
    intro s
    obtain ⟨h1, h2, h3⟩ := ih (PollStep s n)
    simp only [List.foldl]
    have hstep : (PollStep s n).Task = s.Task ∧ (PollStep s n).TaskState = s.TaskState
        ∧ s.LastTasks <+: (PollStep s n).LastTasks := by
      unfold PollStep
      split
      · exact ⟨rfl, rfl, List.prefix_append _ _⟩
      · exact ⟨rfl, rfl, List.prefix_refl _⟩
    exact ⟨h1.trans hstep.1, h2.trans hstep.2.1, hstep.2.2.trans h3⟩

/-- A call leaves `Task` alone while a task is in progress, and never removes a name from
`LastTasks`. -/
theorem step_fields (c : Call) (s s1 : GameMode) (hc : step s c = .ok s1) :
    (s.TaskState ≠ ETaskState.TS_Finish → s1.Task = s.Task)
    ∧ s.LastTasks <+: s1.LastTasks := by
  cases c with
  | Poll fs =>
    simp only [step] at hc
    injection hc with hc
    rw [← hc]
    obtain ⟨h1, _, h3⟩ := foldl_PollStep_fields (FindNonEmptyDirectoryNames s.DataPath fs) s
    exact ⟨fun _ => h1, h3⟩
  | Tick eng fuel =>
    simp only [step] at hc
    cases hs : s.TaskState with
    | TS_Finish =>
      refine ⟨fun hne => absurd rfl hne, ?_⟩
      cases hq : s.TaskQueue with
      | nil =>
        rw [Tick_finish_empty eng fuel s hs hq] at hc
        injection hc with hc
        rw [← hc]
      | cons Head Rest =>
        rw [Tick_finish_dequeue eng fuel s Head Rest hs hq] at hc
        injection hc with hc
        rw [← hc]
    | TS_Brush =>
      cases hl : LoadBrush eng fuel s with
      | error e =>
        rw [Tick_brush_error eng fuel s e hs hl] at hc
        exact Except.noConfusion hc
      | ok s2 =>
        rw [Tick_brush_ok eng fuel s s2 hs hl] at hc
        injection hc with hc
        obtain ⟨st, hst⟩ := LoadBrush_ok eng fuel s s2 hl
        rw [← hc, hst]
        exact ⟨fun _ => rfl, List.prefix_refl _⟩
    | TS_Snapshot =>
      rw [Tick_snapshot eng fuel s hs] at hc
      injection hc with hc
      rw [← hc]
      exact ⟨fun _ => rfl, List.prefix_refl _⟩

theorem mem_enqueued_iff (n : String) (t : List Event) :
    n ∈ enqueued t ↔ Event.Enqueue n ∈ t := by
  induction t with
  | nil => simp [enqueued]
  | cons e es ih => cases e <;> simp [enqueued, ih]

theorem session_runs :
    run (BeginPlay startupDisk (GameMode.construct "/Game/Content/" sessionTables)) sessionCalls
      = .ok sessionEnd := by
  decide!

/-- C3: `Poll` enqueues a directory name exactly when `LastTasks` does not contain it, and
then adds it to `LastTasks`.  In every state reached from `BeginPlay` by `Poll` and `Tick`
calls, whatever the directory listings, no name has been enqueued twice, `TaskQueue` has no
duplicates and every name in `TaskQueue` is in `LastTasks`. -/
theorem Poll_deduplicates (fs : FileSystem) (ProjectContentDir : String) (Tables : DataTables)
    (calls : List Call) (s : GameMode)
    (h : run (BeginPlay fs (GameMode.construct ProjectContentDir Tables)) calls = .ok s) :
    (∀ n, Contains s.LastTasks n = false →
      PollStep s n =
        { s with
          LastTasks := s.LastTasks ++ [n]
          TaskQueue := s.TaskQueue ++ [n]
          Trace := s.Trace ++ [Event.Enqueue n] })
    ∧ (∀ n, Contains s.LastTasks n = true → PollStep s n = s)
    ∧ (∀ n, n ∈ s.LastTasks → PollStep s n = s)
    ∧ (enqueued s.Trace).Nodup
    ∧ s.TaskQueue.Nodup
    ∧ (∀ n ∈ s.TaskQueue, n ∈ s.LastTasks) := by
  have inv := reachable_inv fs ProjectContentDir Tables calls s h
  have hnd := inv.enqueued_nodup
  rw [inv.fifo] at hnd
  refine ⟨PollStep_new s, PollStep_seen s, ?_, inv.enqueued_nodup, ?_, ?_⟩
  · intro n hn
    exact PollStep_seen s n (Contains_of_mem _ _ hn)
  · exact (List.nodup_append.mp hnd).2.1
  · intro n hn
    apply inv.enqueued_seen
    rw [inv.fifo]
    exact List.mem_append_right _ hn

/-- Witness for C3: in the session `a` is listed twice by each poll and enqueued once. -/
theorem Poll_deduplicates_witness :
    run (BeginPlay startupDisk (GameMode.construct "/Game/Content/" sessionTables)) sessionCalls
      = .ok sessionEnd
    ∧ enqueued sessionEnd.Trace = ["a", "b"]
    ∧ (enqueued sessionEnd.Trace).Nodup
    ∧ sessionEnd.TaskQueue.Nodup
    ∧ (∀ n ∈ sessionEnd.TaskQueue, n ∈ sessionEnd.LastTasks) := by
  have h := Poll_deduplicates startupDisk "/Game/Content/" sessionTables sessionCalls
    sessionEnd session_runs
  exact ⟨session_runs, by decide, h.2.2.2.1, h.2.2.2.2.1, h.2.2.2.2.2⟩

/-- C4: tasks are processed one at a time in discovery order.  In every state reached from
`BeginPlay`: a call leaves `Task` unchanged while the state is `TS_Brush` or `TS_Snapshot`;
the calls made so far are, for each finished task in turn, its `Dequeue`, one `LoadBrush`
and one `GenSnapshots(6)`, followed by the calls of the task in progress; and the names
dequeued are a prefix of the names enqueued, the rest being `TaskQueue`. -/
theorem tasks_one_at_a_time (fs : FileSystem) (ProjectContentDir : String)
    (Tables : DataTables) (calls : List Call) (s : GameMode)
    (h : run (BeginPlay fs (GameMode.construct ProjectContentDir Tables)) calls = .ok s) :
    (∀ c s1, step s c = .ok s1 → s.TaskState ≠ ETaskState.TS_Finish → s1.Task = s.Task)
    ∧ (∃ Done : List String,
        processing s.Trace = Done.flatMap cycle ++ pending s.TaskState s.Task
        ∧ dequeued s.Trace = Done ++ current s.TaskState s.Task)
    ∧ enqueued s.Trace = dequeued s.Trace ++ s.TaskQueue
    ∧ dequeued s.Trace <+: enqueued s.Trace := by
  have inv := reachable_inv fs ProjectContentDir Tables calls s h
  refine ⟨?_, inv.cycles, inv.fifo, ?_⟩
  · intro c s1 hc
    exact (step_fields c s s1 hc).1
  · rw [inv.fifo]
    exact List.prefix_append _ _

/-- Witness for C4: the session has finished task `a` and has `b` in progress. -/
theorem tasks_one_at_a_time_witness :
    run (BeginPlay startupDisk (GameMode.construct "/Game/Content/" sessionTables)) sessionCalls
      = .ok sessionEnd
    ∧ processing sessionEnd.Trace = cycle "a" ++ [Event.Dequeue "b"]
    ∧ dequeued sessionEnd.Trace <+: enqueued sessionEnd.Trace := by
  have h := tasks_one_at_a_time startupDisk "/Game/Content/" sessionTables sessionCalls
    sessionEnd session_runs
  exact ⟨session_runs, by decide, h.2.2.2⟩

/-- C10: task directories present at startup are never processed.  `BeginPlay` puts every
name of its scan in `LastTasks` and enqueues none; no call removes a name from `LastTasks`;
and in every state reached from `BeginPlay` such a name is in `LastTasks`, is not in
`TaskQueue`, has never been enqueued or dequeued into `Task`, and `Task` can equal it only
as the empty string the constructor left there. -/
theorem startup_tasks_never_processed (fs : FileSystem) (ProjectContentDir : String)
    (Tables : DataTables) (calls : List Call) (s : GameMode)
    (h : run (BeginPlay fs (GameMode.construct ProjectContentDir Tables)) calls = .ok s) :
    (BeginPlay fs (GameMode.construct ProjectContentDir Tables)).LastTasks
        = FindNonEmptyDirectoryNames (ProjectContentDir ++ "Data") fs
    ∧ (BeginPlay fs (GameMode.construct ProjectContentDir Tables)).TaskQueue = []
    ∧ (∀ c s1, step s c = .ok s1 → s.LastTasks <+: s1.LastTasks)
    ∧ (∀ n ∈ FindNonEmptyDirectoryNames (ProjectContentDir ++ "Data") fs,
        n ∈ s.LastTasks ∧ n ∉ s.TaskQueue ∧ Event.Enqueue n ∉ s.Trace
        ∧ Event.Dequeue n ∉ s.Trace ∧ (s.Task = n → n = "")) := by
  have inv := reachable_inv fs ProjectContentDir Tables calls s h
  obtain ⟨h1, h2, _, _, _⟩ := BeginPlay_construct fs ProjectContentDir Tables
  refine ⟨h1, h2, ?_, ?_⟩
  · intro c s1 hc
    exact (step_fields c s s1 hc).2
  · intro n hn
    have hne : n ∉ enqueued s.Trace := fun hm => inv.enqueued_new n hm hn
    refine ⟨inv.startup_seen n hn, ?_, ?_, ?_, ?_⟩
    · intro hq
      apply hne
      rw [inv.fifo]
      exact List.mem_append_right _ hq
    · intro hm
      exact hne ((mem_enqueued_iff n s.Trace).mpr hm)
    · intro hm
      apply hne
      rw [inv.fifo]
      exact List.mem_append_left _ ((mem_dequeued_iff n s.Trace).mpr hm)
    · intro ht
      rcases inv.task_origin with ho | ho
      · rw [← ht, ho]
      · exfalso
        apply hne
        rw [inv.fifo, ← ht]
        exact List.mem_append_left _ ho

/-- Witness for C10: the directory `old`, present at startup, is listed by every poll of the
session and is never queued. -/
theorem startup_tasks_never_processed_witness :
    run (BeginPlay startupDisk (GameMode.construct "/Game/Content/" sessionTables)) sessionCalls
      = .ok sessionEnd
    ∧ FindNonEmptyDirectoryNames ("/Game/Content/" ++ "Data") startupDisk = ["old"]
    ∧ "old" ∈ sessionEnd.LastTasks ∧ "old" ∉ sessionEnd.TaskQueue
    ∧ Event.Dequeue "old" ∉ sessionEnd.Trace := by
  have h := startup_tasks_never_processed startupDisk "/Game/Content/" sessionTables
    sessionCalls sessionEnd session_runs
  have ho := h.2.2.2 "old" (by decide)
  exact ⟨session_runs, by decide, ho.1, ho.2.1, ho.2.2.2.1⟩

/-! ## Theorems: `LoadBrush` -/

/-- When the manifest cannot be opened the root pointer stays null, and the first test of
`HasField` dereferences it. -/
theorem LoadBrush_null_root (eng : Engine) (fuel : Nat) (s : GameMode)
    (hopen : eng.OpenJson (JsonFilePath s) = none) (hmap : s.DiscreteDataTableMap ≠ []) :
    LoadJsonFile eng (JsonFilePath s) none = (false, none)
    ∧ LoadBrush eng fuel s = .error Fault.NullPointer := by
  have hl : LoadJsonFile eng (JsonFilePath s) none = (false, none) := by
    simp [LoadJsonFile, hopen]
  refine ⟨hl, ?_⟩
  cases hm : s.DiscreteDataTableMap with
  | nil => exact absurd hm hmap
  | cons Iter Rest =>
    simp [LoadBrush, LoadBrushActors, hl, hm, forEach, PlaceDiscreteType]

/-- C6 (evaluation at the failing input): with a manifest that cannot be opened,
`LoadJsonFile` returns `false` and leaves the root null; `LoadBrush` then dereferences the
null root, and the tick that runs it ends in that fault instead of completing. -/
theorem LoadBrush_missing_manifest_faults :
    LoadJsonFile missingEngine (JsonFilePath sessionEnd) none = (false, none)
    ∧ LoadBrush missingEngine 10 sessionEnd = .error Fault.NullPointer
    ∧ run (BeginPlay startupDisk (GameMode.construct "/Game/Content/" sessionTables))
        [Call.Poll laterDisk, Call.Tick missingEngine 10, Call.Tick missingEngine 10]
        = .error Fault.NullPointer := by
  refine ⟨by decide!, by decide!, by decide!⟩

theorem forEach_filter {α σ : Type} (Body : σ → α → Except Fault σ) (p : α → Bool)
    (hskip : ∀ st x, p x = false → Body st x = .ok st) :
    ∀ (l : List α) (st : σ), forEach Body l st = forEach Body (l.filter p) st := by
  intro l
  induction l with
  | nil => intro st; rfl
  | cons x xs ih =>
    intro st
    cases hp : p x with
    | false =>
      rw [List.filter_cons_of_neg (by simp [hp])]
      simp only [forEach, hskip st x hp]
      exact ih st
    | true =>
      rw [List.filter_cons_of_pos hp]
      simp only [forEach]
      cases Body st x with
      | error e => rfl
      | ok st1 => exact ih st1

theorem PlaceDiscreteType_absent (eng : Engine) (s : GameMode) (Root : FJsonObject)
    (st : BrushState) (Iter : String × UDataTable) (h : HasField Root Iter.1 = false) :
    PlaceDiscreteType eng s (some Root) st Iter = .ok st := by
  simp [PlaceDiscreteType, h]

theorem PlaceContinuousType_absent (eng : Engine) (s : GameMode) (fuel : Nat)
    (Root : FJsonObject) (st : BrushState) (Iter : String × UDataTable)
    (h : HasField Root Iter.1 = false) :
    PlaceContinuousType eng s fuel (some Root) st Iter = .ok st := by
  simp [PlaceContinuousType, h]

/-! ### `LoadBrush` returns -/

theorem forEach_ok {α σ : Type} (Body : σ → α → Except Fault σ) (l : List α)
    (hbody : ∀ st, ∀ x ∈ l, ∃ st1, Body st x = .ok st1) :
    ∀ st, ∃ st1, forEach Body l st = .ok st1 := by
  induction l with
  | nil => intro st; exact ⟨st, rfl⟩
  | cons x xs ih =>
    intro st
    obtain ⟨st1, h1⟩ := hbody st x (List.mem_cons_self x xs)
    obtain ⟨st2, h2⟩ := ih (fun st y hy => hbody st y (List.mem_cons_of_mem x hy)) st1
    exact ⟨st2, by simp only [forEach, h1, h2]⟩

theorem GetRandomMeshRow_ok (DataTable : UDataTable) (Raw : Nat) (h : hasRows DataTable) :
    ∃ MeshRow, GetRandomMeshRow DataTable Raw = .ok MeshRow := by
  obtain ⟨MeshRows, hd, hne⟩ := h
  have hlen : 0 < MeshRows.length := List.length_pos.mpr hne
  have hpos : (0 : ℤ) < (MeshRows.length : ℤ) := by exact_mod_cast hlen
  have hidx : RandomIntegerInRange Raw 0 ((MeshRows.length : ℤ) - 1)
      = (Raw : ℤ) % (MeshRows.length : ℤ) := by
    simp [RandomIntegerInRange, hpos]
  have h0 : (0 : ℤ) ≤ (Raw : ℤ) % (MeshRows.length : ℤ) := Int.emod_nonneg _ (ne_of_gt hpos)
  have h1 : (Raw : ℤ) % (MeshRows.length : ℤ) < (MeshRows.length : ℤ) := Int.emod_lt_of_pos _ hpos
  have hin : ((Raw : ℤ) % (MeshRows.length : ℤ)).toNat < MeshRows.length := by omega
  refine ⟨MeshRows[((Raw : ℤ) % (MeshRows.length : ℤ)).toNat], ?_⟩
  simp only [GetRandomMeshRow, hd, hidx, not_lt.mpr h0, if_false, List.getElem?_eq_getElem hin]

theorem PlaceDiscreteInstance_ok (eng : Engine) (s : GameMode) (DataTable : UDataTable)
    (st : BrushState) (Instance : FJsonInstance) (h : hasRows DataTable) :
    ∃ st1, PlaceDiscreteInstance eng s DataTable st Instance = .ok st1 := by
  obtain ⟨MeshRow, hrow⟩ := GetRandomMeshRow_ok DataTable (eng.Random st.Draws) h
  simp only [PlaceDiscreteInstance, hrow]
  split <;> exact ⟨_, rfl⟩

theorem GetArrayField_subset (Root : FJsonObject) (FieldName : String) :
    ∀ Instance ∈ GetArrayField Root FieldName, Instance ∈ Root.flatMap fun Field => Field.2 := by
  intro Instance hi
  unfold GetArrayField at hi
  split at hi
  · next Field hf =>
    exact List.mem_flatMap.mpr ⟨Field, List.mem_of_find?_eq_some hf, hi⟩
  · simp at hi

theorem le_foldr_max (l : List Nat) : ∀ n ∈ l, n ≤ l.foldr max 0 := by
  induction l with
  | nil => intro n hn; simp at hn
  | cons a as ih =>
    intro n hn
    rcases List.mem_cons.mp hn with h | h
    · rw [h]
      exact le_max_left _ _
    · exact le_trans (ih n h) (le_max_right _ _)

theorem PlaceContinuousInstance_ok (eng : Engine) (s : GameMode) (fuel : Nat) (MeshRow : FMeshRow)
    (st : BrushState) (Instance : FJsonInstance) (Root : FJsonObject)
    (hspan : 0 < s.ContinuousSpan) (hfuel : brushFuel eng s Root ≤ fuel)
    (hmem : Instance ∈ Root.flatMap fun Field => Field.2) :
    ∃ st1, PlaceContinuousInstance eng s fuel MeshRow st Instance = .ok st1 := by
  have hle : segmentCount
      (eng.GetSplineLength (Instance.curve.map (GetParsedPos s.LandscapeSize)))
      s.ContinuousSpan ≤ _ :=
    le_foldr_max _ _ (List.mem_map_of_mem (fun Instance : FJsonInstance =>
      segmentCount (eng.GetSplineLength (Instance.curve.map (GetParsedPos s.LandscapeSize)))
        s.ContinuousSpan) hmem)
  have hlt : segmentCount (eng.GetSplineLength (Instance.curve.map (GetParsedPos s.LandscapeSize)))
      s.ContinuousSpan < fuel := by
    unfold brushFuel at hfuel
    omega
  have hs := sampleSpline_from
    (eng.GetSplineLength (Instance.curve.map (GetParsedPos s.LandscapeSize)))
    s.ContinuousSpan hspan fuel 0 (Nat.zero_le _) (by omega)
  have hs0 : sampleSpline
      (eng.GetSplineLength (Instance.curve.map (GetParsedPos s.LandscapeSize)))
      s.ContinuousSpan fuel 0 [] = some (fullSegments s.ContinuousSpan (segmentCount
        (eng.GetSplineLength (Instance.curve.map (GetParsedPos s.LandscapeSize)))
        s.ContinuousSpan)) := by
    simpa [fullSegments] using hs
  simp only [PlaceContinuousInstance, hs0]
  exact ⟨_, rfl⟩

/-- With a manifest that opens, a positive span, rows in the data table of every type
present and fuel for the resampling loops, `LoadBrush` returns. -/
theorem LoadBrush_returns (eng : Engine) (fuel : Nat) (s : GameMode) (b : Bool)
    (Root : FJsonObject) (hopen : eng.OpenJson (JsonFilePath s) = some (b, Root))
    (hspan : 0 < s.ContinuousSpan)
    (htables : ∀ Iter ∈ s.DiscreteDataTableMap ++ s.ContinuousDataTableMap,
      HasField Root Iter.1 = true → hasRows Iter.2)
    (hfuel : brushFuel eng s Root ≤ fuel) :
    ∃ s1, LoadBrush eng fuel s = .ok s1 := by
  have hroot : (LoadJsonFile eng (JsonFilePath s) none).2 = some Root := by
    simp [LoadJsonFile, hopen]
  have hd : ∀ st, ∀ Iter ∈ s.DiscreteDataTableMap,
      ∃ st1, PlaceDiscreteType eng s (some Root) st Iter = .ok st1 := by
    intro st Iter hm
    cases hf : HasField Root Iter.1 with
    | false => exact ⟨st, PlaceDiscreteType_absent eng s Root st Iter hf⟩
    | true =>
      have hr := htables Iter (List.mem_append_left _ hm) hf
      simp only [PlaceDiscreteType, hf, Bool.not_true, Bool.false_eq_true, if_false]
      exact forEach_ok _ _ (fun st2 x _ => PlaceDiscreteInstance_ok eng s Iter.2 st2 x hr) st
  have hc : ∀ st, ∀ Iter ∈ s.ContinuousDataTableMap,
      ∃ st1, PlaceContinuousType eng s fuel (some Root) st Iter = .ok st1 := by
    intro st Iter hm
    cases hf : HasField Root Iter.1 with
    | false => exact ⟨st, PlaceContinuousType_absent eng s fuel Root st Iter hf⟩
    | true =>
      have hr := htables Iter (List.mem_append_right _ hm) hf
      obtain ⟨MeshRow, hrow⟩ := GetRandomMeshRow_ok Iter.2 (eng.Random st.Draws) hr
      simp only [PlaceContinuousType, hf, Bool.not_true, Bool.false_eq_true, if_false, hrow]
      exact forEach_ok _ _ (fun st2 x hx =>
        PlaceContinuousInstance_ok eng s fuel MeshRow st2 x Root hspan hfuel
          (GetArrayField_subset Root Iter.1 x hx)) _
  obtain ⟨st1, h1⟩ := forEach_ok _ _ hd ⟨[], 0⟩
  obtain ⟨st2, h2⟩ := forEach_ok _ _ hc st1
  refine ⟨{ s with Actors := st2.Actors, Trace := s.Trace ++ [Event.LoadBrush s.Task] }, ?_⟩
  simp only [LoadBrush, hroot, LoadBrushActors, h1, h2]

/-- C7: for every manifest root, a type of either map for which the root has no field is
passed over (no actor, no random draw, whatever its data table) and the loop goes on with
the other types: the placement loops give the same result as on maps holding only the types
present, so `Actors` holds exactly the actors of the types present, and none when no type
is present. -/
theorem LoadBrush_skips_absent_types (eng : Engine) (fuel : Nat) (s : GameMode)
    (Root : FJsonObject) :
    (∀ st Iter, HasField Root Iter.1 = false →
      PlaceDiscreteType eng s (some Root) st Iter = .ok st)
    ∧ (∀ st Iter, HasField Root Iter.1 = false →
      PlaceContinuousType eng s fuel (some Root) st Iter = .ok st)
    ∧ LoadBrushActors eng fuel s (some Root)
        = LoadBrushActors eng fuel (presentTypesOnly Root s) (some Root)
    ∧ ((∀ Iter ∈ s.DiscreteDataTableMap ++ s.ContinuousDataTableMap,
          HasField Root Iter.1 = false) →
        LoadBrushActors eng fuel s (some Root) = .ok ⟨[], 0⟩) := by
  have hd := forEach_filter (PlaceDiscreteType eng s (some Root))
    (fun Iter => HasField Root Iter.1)
    (fun st Iter h => PlaceDiscreteType_absent eng s Root st Iter h)
  have hc := forEach_filter (PlaceContinuousType eng s fuel (some Root))
    (fun Iter => HasField Root Iter.1)
    (fun st Iter h => PlaceContinuousType_absent eng s fuel Root st Iter h)
  have heq : LoadBrushActors eng fuel s (some Root)
      = LoadBrushActors eng fuel (presentTypesOnly Root s) (some Root) := by
    show LoadBrushActors eng fuel s (some Root)
      = (match forEach (PlaceDiscreteType eng s (some Root))
            (s.DiscreteDataTableMap.filter fun Iter => HasField Root Iter.1) ⟨[], 0⟩ with
        | .error e => .error e
        | .ok st =>
          forEach (PlaceContinuousType eng s fuel (some Root))
            (s.ContinuousDataTableMap.filter fun Iter => HasField Root Iter.1) st)
    rw [← hd]
    unfold LoadBrushActors
    cases forEach (PlaceDiscreteType eng s (some Root)) s.DiscreteDataTableMap ⟨[], 0⟩ with
    | error e => rfl
    | ok st => exact hc _ st
  refine ⟨fun st Iter h => PlaceDiscreteType_absent eng s Root st Iter h,
    fun st Iter h => PlaceContinuousType_absent eng s fuel Root st Iter h, heq, ?_⟩
  intro hall
  rw [heq]
  have h1 : (s.DiscreteDataTableMap.filter fun Iter => HasField Root Iter.1) = [] := by
    rw [List.filter_eq_nil_iff]
    intro Iter hm
    simp [hall Iter (List.mem_append_left _ hm)]
  have h2 : (s.ContinuousDataTableMap.filter fun Iter => HasField Root Iter.1) = [] := by
    rw [List.filter_eq_nil_iff]
    intro Iter hm
    simp [hall Iter (List.mem_append_right _ hm)]
  simp [LoadBrushActors, presentTypesOnly, h1, h2, forEach]

/-- Witness for C7: the session manifest has fields for `tree` and `road` only; the five
other types are passed over and the tree and the two road segments are placed. -/
theorem LoadBrush_skips_absent_types_witness :
    (presentTypesOnly sessionManifest sessionEnd).DiscreteDataTableMap
      = [("tree", some [⟨some "SM_Tree", none⟩])]
    ∧ (presentTypesOnly sessionManifest sessionEnd).ContinuousDataTableMap
      = [("road", some [⟨some "SM_Road", none⟩])]
    ∧ LoadBrushActors sessionEngine 10 sessionEnd (some sessionManifest)
      = LoadBrushActors sessionEngine 10 (presentTypesOnly sessionManifest sessionEnd)
          (some sessionManifest)
    ∧ LoadBrushActors sessionEngine 10 sessionEnd (some sessionManifest)
      = .ok ⟨sessionEnd.Actors, 2⟩
    ∧ LoadBrushActors sessionEngine 10 sessionEnd (some []) = .ok ⟨[], 0⟩ := by
  have h := LoadBrush_skips_absent_types sessionEngine 10 sessionEnd sessionManifest
  have h0 := LoadBrush_skips_absent_types sessionEngine 10 sessionEnd []
  exact ⟨by decide!, by decide!, h.2.2.1, by decide!, h0.2.2.2 (by decide!)⟩

theorem Split_no_comma (Str : List Char) (h : ',' ∉ Str) : Split Str = none := by
  induction Str with
  | nil => rfl
  | cons c cs ih =>
    have hc : c ≠ ',' := fun hh => h (by simp [hh])
    have hcs : ',' ∉ cs := fun hh => h (by simp [hh])
    simp [Split, hc, ih hcs]

theorem GetParsedPos_no_comma (LandscapeSize : FVector2D) (PosStr : String)
    (h : ',' ∉ PosStr.data) :
    GetParsedPos LandscapeSize PosStr
      = ⟨-LandscapeSize.X * (1 / 2), -LandscapeSize.Y * (1 / 2), 0⟩ := by
  have ha : Atof [] = 0 := by decide!
  have hm : ∀ a b : ℚ, MapRangeClamped 0 0 1 a b = a := by
    intro a b
    simp [MapRangeClamped, GetRangePct_unit, Lerp, Clamp]
  simp only [GetParsedPos, Split_no_comma PosStr.data h, ha, hm]

/-- C8 (counterexample): the first instance of the `tree` array of `malformedManifest` has
the position string `abc`, without a comma; `LoadBrush` spawns an actor for it all the same,
at the corner `(-20000, -15000, 0)` of the landscape, before the well-formed second one. -/
theorem LoadBrush_places_malformed_pos :
    ',' ∉ "abc".data
    ∧ LoadBrushActors sessionEngine 10 sessionEnd (some malformedManifest)
      = .ok ⟨[AActor.StaticMeshActor ⟨-20000, -15000, 0⟩ 30 "SM_Tree",
              AActor.StaticMeshActor ⟨-10000, 0, 0⟩ 90 "SM_Tree"], 2⟩ := by
  refine ⟨by decide, by decide!⟩

/-- C8 (amended): a discrete instance whose position string has no comma is not skipped.
`GetParsedPos` reads both coordinates as `0` and returns the corner `(-W/2, -H/2, 0)`; the
instance takes the same path as one with position `"0,0"`, so an actor is spawned for it
there whenever the mesh row drawn has a mesh. -/
theorem PlaceDiscreteInstance_no_comma (eng : Engine) (s : GameMode) (DataTable : UDataTable)
    (st : BrushState) (Instance : FJsonInstance) (h : ',' ∉ Instance.pos.data) :
    GetParsedPos s.LandscapeSize Instance.pos
      = ⟨-s.LandscapeSize.X * (1 / 2), -s.LandscapeSize.Y * (1 / 2), 0⟩
    ∧ PlaceDiscreteInstance eng s DataTable st Instance
      = PlaceDiscreteInstance eng s DataTable st { Instance with pos := "0,0" }
    ∧ (∀ MeshRow StaticMesh, GetRandomMeshRow DataTable (eng.Random st.Draws) = .ok MeshRow →
        MeshRow.StaticMesh = some StaticMesh →
        PlaceDiscreteInstance eng s DataTable st Instance
          = .ok ⟨st.Actors ++ [AActor.StaticMeshActor
              ⟨-s.LandscapeSize.X * (1 / 2), -s.LandscapeSize.Y * (1 / 2), 0⟩
              Instance.yaw StaticMesh], st.Draws + 1⟩)
    ∧ (∀ MeshRow SkeletalMesh, GetRandomMeshRow DataTable (eng.Random st.Draws) = .ok MeshRow →
        MeshRow.StaticMesh = none → MeshRow.SkeletalMesh = some SkeletalMesh →
        PlaceDiscreteInstance eng s DataTable st Instance
          = .ok ⟨st.Actors ++ [AActor.SkeletalMeshActor
              ⟨-s.LandscapeSize.X * (1 / 2), -s.LandscapeSize.Y * (1 / 2), 0⟩
              Instance.yaw SkeletalMesh], st.Draws + 1⟩) := by
  have hpos := GetParsedPos_no_comma s.LandscapeSize Instance.pos h
  have hzero : GetParsedPos s.LandscapeSize "0,0"
      = ⟨-s.LandscapeSize.X * (1 / 2), -s.LandscapeSize.Y * (1 / 2), 0⟩ := by
    have hs : Split "0,0".data = some (['0'], ['0']) := by decide
    have ha : Atof ['0'] = 0 := by decide!
    have hm : ∀ a b : ℚ, MapRangeClamped 0 0 1 a b = a := by
      intro a b
      simp [MapRangeClamped, GetRangePct_unit, Lerp, Clamp]
    simp only [GetParsedPos, hs, ha, hm]
  refine ⟨hpos, ?_, ?_, ?_⟩
  · simp only [PlaceDiscreteInstance, hpos, hzero]
  · intro MeshRow StaticMesh hrow hmesh
    simp only [PlaceDiscreteInstance, hpos, hrow, hmesh]
  · intro MeshRow SkeletalMesh hrow hstatic hmesh
    simp only [PlaceDiscreteInstance, hpos, hrow, hstatic, hmesh]

/-- Witness for C8 (amended): the instance with position `abc` on the default landscape. -/
theorem PlaceDiscreteInstance_no_comma_witness :
    ',' ∉ "abc".data
    ∧ GetParsedPos sessionEnd.LandscapeSize "abc"
      = ⟨-sessionEnd.LandscapeSize.X * (1 / 2), -sessionEnd.LandscapeSize.Y * (1 / 2), 0⟩
    ∧ PlaceDiscreteInstance sessionEngine sessionEnd sessionEnd.TreeDataTable ⟨[], 0⟩
        ⟨"abc", 30, 0, []⟩
      = PlaceDiscreteInstance sessionEngine sessionEnd sessionEnd.TreeDataTable ⟨[], 0⟩
        ⟨"0,0", 30, 0, []⟩ := by
  have h := PlaceDiscreteInstance_no_comma sessionEngine sessionEnd sessionEnd.TreeDataTable
    ⟨[], 0⟩ ⟨"abc", 30, 0, []⟩ (by decide)
  exact ⟨by decide, h.1, h.2.1⟩

/-! ## Theorems: the transitions of `Tick` -/

/-- C2: one call of `Tick` makes one transition of the cycle.  In `TS_Finish` with a
non-empty queue it removes the head, stores it in `Task` and moves to `TS_Brush`; in
`TS_Finish` with an empty queue it changes nothing; in `TS_Brush` it runs `LoadBrush` and,
on its return, moves to `TS_Snapshot` (a fault of `LoadBrush` is a fault of `Tick`), and
`LoadBrush` does return when the manifest opens, the span is positive, the data tables of
the types present have rows and the fuel covers the resampling loops; in `TS_Snapshot` it
runs `GenSnapshots(6)` and moves to `TS_Finish`.  The constructor sets `TS_Finish`. -/
theorem Tick_cycle (eng : Engine) (fuel : Nat) (s : GameMode) (ProjectContentDir : String)
    (Tables : DataTables) :
    (∀ Head Rest, s.TaskState = ETaskState.TS_Finish → s.TaskQueue = Head :: Rest →
      Tick eng fuel s =
        .ok { s with
              TaskQueue := Rest
              Task := Head
              TaskState := ETaskState.TS_Brush
              Trace := s.Trace ++ [Event.Dequeue Head] })
    ∧ (s.TaskState = ETaskState.TS_Finish → s.TaskQueue = [] → Tick eng fuel s = .ok s)
    ∧ (∀ s1, s.TaskState = ETaskState.TS_Brush → LoadBrush eng fuel s = .ok s1 →
        Tick eng fuel s = .ok { s1 with TaskState := ETaskState.TS_Snapshot }
        ∧ Event.LoadBrush s.Task ∈ s1.Trace
        ∧ s1.TaskQueue = s.TaskQueue ∧ s1.Task = s.Task ∧ s1.LastTasks = s.LastTasks)
    ∧ (∀ e, s.TaskState = ETaskState.TS_Brush → LoadBrush eng fuel s = .error e →
        Tick eng fuel s = .error e)
    ∧ (∀ b Root, s.TaskState = ETaskState.TS_Brush →
        eng.OpenJson (JsonFilePath s) = some (b, Root) → 0 < s.ContinuousSpan →
        (∀ Iter ∈ s.DiscreteDataTableMap ++ s.ContinuousDataTableMap,
          HasField Root Iter.1 = true → hasRows Iter.2) →
        brushFuel eng s Root ≤ fuel →
        ∃ s1, LoadBrush eng fuel s = .ok s1
          ∧ Tick eng fuel s = .ok { s1 with TaskState := ETaskState.TS_Snapshot })
    ∧ (s.TaskState = ETaskState.TS_Snapshot →
        Tick eng fuel s = .ok { GenSnapshots 6 s with TaskState := ETaskState.TS_Finish }
        ∧ GenSnapshots 6 s = { s with Trace := s.Trace ++ [Event.GenSnapshots s.Task 6] })
    ∧ (GameMode.construct ProjectContentDir Tables).TaskState = ETaskState.TS_Finish := by
  refine ⟨?_, ?_, ?_, ?_, ?_, ?_, rfl⟩
  · intro Head Rest hs hq
    exact Tick_finish_dequeue eng fuel s Head Rest hs hq
  · intro hs hq
    exact Tick_finish_empty eng fuel s hs hq
  · intro s1 hs hl
    obtain ⟨st, hst⟩ := LoadBrush_ok eng fuel s s1 hl
    refine ⟨Tick_brush_ok eng fuel s s1 hs hl, ?_, ?_, ?_, ?_⟩
    · rw [hst]
      simp
    · rw [hst]
    · rw [hst]
    · rw [hst]
  · intro e hs hl
    exact Tick_brush_error eng fuel s e hs hl
  · intro b Root hs hopen hspan htables hfuel
    obtain ⟨s1, hl⟩ := LoadBrush_returns eng fuel s b Root hopen hspan htables hfuel
    exact ⟨s1, hl, Tick_brush_ok eng fuel s s1 hs hl⟩
  · intro hs
    exact ⟨by rw [Tick_snapshot eng fuel s hs]; rfl, rfl⟩

/-- Witness for C2: the session ends in `TS_Brush` with task `b`; the next tick runs
`LoadBrush` on the session manifest and moves to `TS_Snapshot`. -/
theorem Tick_cycle_witness :
    sessionEnd.TaskState = ETaskState.TS_Brush
    ∧ (Tick sessionEngine 10 sessionEnd).toOption.map (fun g => g.TaskState)
        = some ETaskState.TS_Snapshot := by
  have h := (Tick_cycle sessionEngine 10 sessionEnd "/Game/Content/" sessionTables).2.2.2.2.1
    true sessionManifest rfl rfl (by decide!)
    (by
      intro Iter hm _
      simp only [sessionEnd, List.cons_append, List.nil_append, List.mem_cons,
        List.mem_singleton, List.not_mem_nil, or_false] at hm
      rcases hm with h | h | h | h | h | h | h <;> rw [h] <;> exact ⟨_, rfl, by simp⟩)
    (by decide!)
  obtain ⟨s1, _, ht⟩ := h
  refine ⟨rfl, ?_⟩
  rw [ht]
  rfl

/-! ## Theorems: the two evaluations of `GetParsedPos` -/

/-- On a string without a comma the evaluation in `float` arithmetic gives the point of the
evaluation in exact arithmetic, for sizes that are non-negative `float`s with halves that
are `float`s. -/
theorem GetParsedPos_no_comma_float (w h : ℚ)
    (hw : 0 ≤ w) (hwf : Float32.roundSingle w = .finite w)
    (hw2 : Float32.roundSingle (w * (1 / 2)) = .finite (w * (1 / 2)))
    (hh : 0 ≤ h) (hhf : Float32.roundSingle h = .finite h)
    (hh2 : Float32.roundSingle (h * (1 / 2)) = .finite (h * (1 / 2)))
    (PosStr : String) (hc : ',' ∉ PosStr.data) :
    Float32.GetParsedPos ⟨.finite w, .finite h⟩ PosStr
      = ⟨.finite (GetParsedPos ⟨w, h⟩ PosStr).X, .finite (GetParsedPos ⟨w, h⟩ PosStr).Y,
          .finite (GetParsedPos ⟨w, h⟩ PosStr).Z⟩ := by
  have ha : Float32.Atof [] = .finite 0 := by decide!
  obtain ⟨XStr, YStr, hp, _, hnone⟩ := Float32.GetParsedPos_parts ⟨.finite w, .finite h⟩ PosStr
  obtain ⟨hx, hy⟩ := hnone (Split_no_comma PosStr.data hc)
  obtain ⟨bX, hbX, _, _, _, _, _, hloX, _⟩ := Float32.coordinate_of_size w hw hwf
  obtain ⟨bY, hbY, _, _, _, _, _, hloY, _⟩ := Float32.coordinate_of_size h hh hhf
  have ebX : bX = w * (1 / 2) := by
    have : Float32.roundSingle (w * (1 / 2)) = .finite bX := hbX
    rw [hw2] at this
    injection this with this
    exact this.symm
  have ebY : bY = h * (1 / 2) := by
    have : Float32.roundSingle (h * (1 / 2)) = .finite bY := hbY
    rw [hh2] at this
    injection this with this
    exact this.symm
  rw [hp, hx, hy, hloX [] (Or.inl ⟨0, ha, le_rfl⟩), hloY [] (Or.inl ⟨0, ha, le_rfl⟩),
    GetParsedPos_no_comma ⟨w, h⟩ PosStr hc, ebX, ebY]
  simp only [neg_mul]

/-- The position strings of the session manifests are mapped without rounding: on the
default landscape the evaluation in `float` arithmetic gives the points of the exact one. -/
theorem session_positions_float :
    Float32.GetParsedPos ⟨.finite 40000, .finite 30000⟩ "0.25,0.5"
      = ⟨.finite (GetParsedPos ⟨40000, 30000⟩ "0.25,0.5").X,
          .finite (GetParsedPos ⟨40000, 30000⟩ "0.25,0.5").Y, .finite 0⟩
    ∧ Float32.GetParsedPos ⟨.finite 40000, .finite 30000⟩ "0,0"
      = ⟨.finite (GetParsedPos ⟨40000, 30000⟩ "0,0").X,
          .finite (GetParsedPos ⟨40000, 30000⟩ "0,0").Y, .finite 0⟩
    ∧ Float32.GetParsedPos ⟨.finite 40000, .finite 30000⟩ "1,1"
      = ⟨.finite (GetParsedPos ⟨40000, 30000⟩ "1,1").X,
          .finite (GetParsedPos ⟨40000, 30000⟩ "1,1").Y, .finite 0⟩
    ∧ Float32.GetParsedPos ⟨.finite 40000, .finite 30000⟩ "abc"
      = ⟨.finite (GetParsedPos ⟨40000, 30000⟩ "abc").X,
          .finite (GetParsedPos ⟨40000, 30000⟩ "abc").Y, .finite 0⟩ := by
  refine ⟨by decide!, by decide!, by decide!, by decide!⟩

end CloudRendering
